import Mathlib

/-!
Shallow embedding of `src/scalene/scalene.py` (the Scalene profiler, single-file
version) and proofs about it.

Modelling conventions:
* Python `float` arithmetic is modelled exactly over `ℚ` (the claims are about
  which quantities are added where, not about rounding error).
* Python `defaultdict`s are modelled as total functions together with explicit
  key lists where the program observes the key set (`keys()`, `values()`,
  top-level unions); reading a missing key inserts it with the default value,
  exactly as `defaultdict` does.
* Code that raises an exception which escapes the function is modelled with
  `Option` (`none` = the call raises).
* External inputs (the current process time, the signalled frames, the bridge
  files' contents, `os.path.abspath`, the random choices of the reservoir) are
  parameters of the embedded functions.  A bridge-file line is modelled as the
  result of `float(line)`: `some q` if the line parses to the value `q`,
  `none` if `float` raises `ValueError`.
* The `reservoir` module is imported by the source but is not part of this
  repository's sources; it is modelled from the spec (see `Reservoir.add`).
-/

namespace Scalene

/-- Substring containment, modelling Python's `pat in s` on strings. -/
def substr (pat s : String) : Bool := decide (List.IsInfix pat.data s.data)

/-- Insert a key at the end of a key list if absent (Python dicts preserve
insertion order; a repeated insertion is a no-op). -/
def insKey {α : Type} [DecidableEq α] (ks : List α) (k : α) : List α :=
  if k ∈ ks then ks else ks ++ [k]

/-- Pointwise update of a two-argument function. -/
def updF2 {β : Type} (g : String → ℕ → β) (f : String) (l : ℕ) (v : β) :
    String → ℕ → β :=
  fun f' l' => if f' = f ∧ l' = l then v else g f' l'

/-- Pointwise update of a three-argument function. -/
def updF3 {β : Type} (g : String → ℕ → ℕ → β) (f : String) (l : ℕ) (i : ℕ) (v : β) :
    String → ℕ → ℕ → β :=
  fun f' l' i' => if f' = f ∧ l' = l ∧ i' = i then v else g f' l' i'

/-- A two-level `defaultdict(lambda: defaultdict(float))` (the CPU sample
tables).  Both key levels are observed by the code (the top level feeds the
union of instrumented files, the inner level feeds `sum(d[f].values())`), so
both are tracked. -/
structure Dict2 where
  keys1 : List String
  keys2 : String → List ℕ
  val : String → ℕ → ℚ

/-- Reading `d[f][l]` (defaultdict: inserts both keys, value unchanged). -/
def Dict2.touch (d : Dict2) (f : String) (l : ℕ) : Dict2 :=
  { keys1 := insKey d.keys1 f
    keys2 := fun f' => if f' = f then insKey (d.keys2 f) l else d.keys2 f'
    val := d.val }

/-- Reading `d[f]` alone (inserts the top-level key only). -/
def Dict2.touch1 (d : Dict2) (f : String) : Dict2 :=
  { d with keys1 := insKey d.keys1 f }

/-- `d[f][l] += q`. -/
def Dict2.add (d : Dict2) (f : String) (l : ℕ) (q : ℚ) : Dict2 :=
  { keys1 := insKey d.keys1 f
    keys2 := fun f' => if f' = f then insKey (d.keys2 f) l else d.keys2 f'
    val := updF2 d.val f l (d.val f l + q) }

/-- `sum(d[f].values())`. -/
def Dict2.fileSum (d : Dict2) (f : String) : ℚ :=
  (d.keys2 f).foldl (fun a l => a + d.val f l) 0

/-- Well-formedness of the model of a defaultdict: a key that was never
inserted holds the default value (real dicts have no value at absent keys). -/
def Dict2.WF (d : Dict2) : Prop :=
  ∀ f l, l ∉ d.keys2 f → d.val f l = 0

/-- A three-level `defaultdict` (the memory sample tables).  The top-level keys
feed the union of instrumented files and the innermost keys are the subject of
claim C7, so those two levels are tracked; the middle level is never observed
as a key set by the code. -/
structure Dict3 where
  keys1 : List String
  innerKeys : String → ℕ → List ℕ
  val : String → ℕ → ℕ → ℚ

/-- Reading `d[f][l]` (as in `samples = memory_malloc_samples[fname][line_no]`):
inserts the top-level key. -/
def Dict3.touchTop (d : Dict3) (f : String) : Dict3 :=
  { d with keys1 := insKey d.keys1 f }

/-- Reading `d[f][l][i]`: inserts keys at every level, value unchanged. -/
def Dict3.touch (d : Dict3) (f : String) (l : ℕ) (i : ℕ) : Dict3 :=
  { keys1 := insKey d.keys1 f
    innerKeys := fun f' l' =>
      if f' = f ∧ l' = l then insKey (d.innerKeys f l) i else d.innerKeys f' l'
    val := d.val }

/-- `d[f][l][i] += q`. -/
def Dict3.add (d : Dict3) (f : String) (l : ℕ) (i : ℕ) (q : ℚ) : Dict3 :=
  { keys1 := insKey d.keys1 f
    innerKeys := fun f' l' =>
      if f' = f ∧ l' = l then insKey (d.innerKeys f l) i else d.innerKeys f' l'
    val := updF3 d.val f l i (d.val f l i + q) }

/-- Modelled from the spec: the `reservoir` module is imported by the source
(`from . import reservoir`) but its file is not part of this repository's
sources.  Spec §4.1: a fixed-capacity `k` uniform sample; `offer(item)`: "if
fewer than `k` items have been offered, store; otherwise with probability
`k/n` ... replace a uniformly chosen stored item".  The probabilistic choices
are supplied as oracle inputs: `coin` is the outcome of the probability-`k/n`
event and `slot` the uniformly chosen index. -/
structure Reservoir where
  capacity : ℕ
  count : ℕ
  items : List (ℚ × ℚ)

/-- Modelled from the spec: one `offer` to a reservoir (see `Reservoir`). -/
def Reservoir.add (r : Reservoir) (x : ℚ × ℚ) (coin : Bool) (slot : ℕ) : Reservoir :=
  if r.items.length < r.capacity then
    { r with items := r.items ++ [x], count := r.count + 1 }
  else if coin then
    { r with items := r.items.set (slot % r.capacity) x, count := r.count + 1 }
  else
    { r with count := r.count + 1 }

/-- The class-level mutable state of `class Scalene` (statistics counters and
profiling bookkeeping).  `float("inf")`-valued fields are modelled with
`WithTop ℚ`. -/
structure State where
  cpu_samples_python : Dict2
  cpu_samples_c : Dict2
  memory_malloc_samples : Dict3
  memory_malloc_count : String → ℕ → ℕ → ℕ
  memory_free_samples : Dict3
  memory_free_count : String → ℕ → ℕ → ℕ
  total_cpu_samples : ℚ
  total_memory_malloc_samples : ℚ
  total_memory_free_samples : ℚ
  current_footprint : ℚ
  max_footprint : ℚ
  mean_signal_interval : ℚ
  last_signal_interval : ℚ
  last_signal_time : ℚ
  memory_footprint_samples : Reservoir
  per_line_footprint_samples : String → ℕ → Reservoir
  program_path : String
  output_profile_interval : WithTop ℚ
  next_output_time : WithTop ℚ
  elapsed_time : ℚ
  bytei_map : String → ℕ → List ℕ

/-- The empty two-level table. -/
def emptyDict2 : Dict2 := { keys1 := [], keys2 := fun _ => [], val := fun _ _ => 0 }

/-- The empty three-level table. -/
def emptyDict3 : Dict3 :=
  { keys1 := [], innerKeys := fun _ _ => [], val := fun _ _ _ => 0 }

/-- The state right after `Scalene.start()` has run for a fresh profiler:
all counters zero, `mean_signal_interval = last_signal_interval = 0.01`,
`last_signal_time` set to the time `t0` read by `enable_signals`, and the
output clock at its default `float("inf")`. -/
def initState (pp : String) (t0 : ℚ) : State :=
  { cpu_samples_python := emptyDict2
    cpu_samples_c := emptyDict2
    memory_malloc_samples := emptyDict3
    memory_malloc_count := fun _ _ _ => 0
    memory_free_samples := emptyDict3
    memory_free_count := fun _ _ _ => 0
    total_cpu_samples := 0
    total_memory_malloc_samples := 0
    total_memory_free_samples := 0
    current_footprint := 0
    max_footprint := 0
    mean_signal_interval := 1 / 100
    last_signal_interval := 1 / 100
    last_signal_time := t0
    memory_footprint_samples := { capacity := 47, count := 0, items := [] }
    per_line_footprint_samples := fun _ _ => { capacity := 10, count := 0, items := [] }
    program_path := pp
    output_profile_interval := ⊤
    next_output_time := ⊤
    elapsed_time := 0
    bytei_map := fun _ _ => [] }

/-- Truncation toward zero, modelling Python's `int(x)` on a float. -/
def ratTrunc (q : ℚ) : ℤ := if 0 ≤ q then ⌊q⌋ else -⌊-q⌋

/-- Python's `round(x, 0)`: round-half-to-even. -/
def pyRound (q : ℚ) : ℤ :=
  let f := ⌊q⌋
  let r := q - f
  if r < 1 / 2 then f
  else if 1 / 2 < r then f + 1
  else if f % 2 = 0 then f else f + 1

/-- Python sequence indexing `s[i]` with negative-index wrap-around: `s[-k]`
is the `k`-th element from the end when `k ≤ len(s)`; anything further out of
range raises `IndexError` (`none`). -/
def pyIndexGet {α : Type} (s : List α) (i : ℤ) : Option α :=
  if 0 ≤ i then s.get? i.toNat
  else if 0 ≤ (s.length : ℤ) + i then s.get? ((s.length : ℤ) + i).toNat
  else none

/-- `Scalene.bar`, the 8-character sparkline alphabet. -/
def barList : List Char := ['▁', '▂', '▃', '▄', '▅', '▆', '▇', '█']

/-- One generator step of `Scalene.sparkline`: the character chosen for the
value `n` given `mn` and `extent` (Python: `bar[min(barcount - 1,
int((n - mn) / extent * barcount))]`; the index may be negative, in which case
Python indexing wraps from the end of the string). -/
def sparkChar (mn extent : ℚ) (n : ℚ) : Option Char :=
  pyIndexGet barList (min (7 : ℤ) (ratTrunc ((n - mn) / extent * 8)))

/-- The characters produced by the `''.join(...)` generator in
`Scalene.sparkline`: the first failing index aborts the whole call. -/
def sparkChars (mn extent : ℚ) : List ℚ → Option (List Char)
  | [] => some []
  | n :: ns => do
    let c ← sparkChar mn extent n
    let cs ← sparkChars mn extent ns
    pure (c :: cs)

/-- `Scalene.sparkline(numbers, fixed_min, fixed_max)` (source lines 144-162).
`none` models the call raising (`ValueError` from `min`/`max` of an empty
sequence when a bound is defaulted, or `IndexError` from an index below `-8`). -/
def sparkline (numbers : List ℚ) (fixed_min fixed_max : ℚ) :
    Option (ℚ × ℚ × List Char) :=
  match (if fixed_min = -1 then numbers.min? else some fixed_min) with
  | none => none
  | some mn =>
    match (if fixed_max = -1 then numbers.max? else some fixed_max) with
    | none => none
    | some mx =>
      let extent := if mx - mn = 0 then 1 else mx - mn
      match sparkChars mn extent numbers with
      | none => none
      | some cs => some (mn, mx, cs)

/-- `Scalene.should_trace(filename)` (source lines 397-410).  `abspath` models
`os.path.abspath` and `program_path` the `Scalene.program_path` class variable.
`none` models the `IndexError` raised by `filename[0]` on the empty string. -/
def should_trace (abspath : String → String) (program_path : String)
    (filename : String) : Option Bool :=
  match filename.data with
  | [] => none
  | c :: _ =>
    if c = '<' ∨ substr "site-packages" filename ∨ substr "/usr/lib/python" filename then
      some false
    else if substr "scalene.py" filename then
      some false
    else
      some (substr program_path (abspath filename))

/-- `Scalene.call_functions`: the opcode names treated as function calls. -/
def call_functions : List String := ["CALL_FUNCTION", "CALL_FUNCTION_KW", "CALL_FUNCTION_EX"]

/-- `Scalene.is_call_function(code, bytei)` (source lines 165-172).  A code
object is modelled as its disassembly: the list of `(offset, opname)` pairs;
the source compares opcode numbers obtained through `dis.opmap`, which is a
bijection from names, so comparing names is equivalent. -/
def is_call_function (code : List (ℕ × String)) (bytei : ℕ) : Bool :=
  code.any fun ins => ins.1 = bytei ∧ ins.2 ∈ call_functions

/-- A Python frame as observed by the handlers.  `fid` stands for the object's
identity (`frame == this_frame` on frames is identity comparison); `fback` is
`frame.f_back.f_code.co_filename` when `f_back` is not `None`. -/
structure Frame where
  fid : ℕ
  fname : String
  f_lineno : ℕ
  f_lasti : ℕ
  code : List (ℕ × String)
  fback : Option String
  deriving DecidableEq

/-- `line.rstrip()`: strip trailing whitespace. -/
def rstrip (s : String) : String :=
  ⟨(s.data.reverse.dropWhile Char.isWhitespace).reverse⟩

/-- Result of `alloc_handler_helper`: the new state, whether `os.remove`
unlinked the bridge file on this drain, and a ghost trace of the value of
`current_footprint` after each processed sample line (used only to state the
running-maximum property; it is not part of the program's state). -/
structure HelperOut where
  state : State
  removed : Bool
  trace : List ℚ

/-- Result of the `for l, count_str in enumerate(f, 1)` loop inside
`alloc_handler_helper`: `readSomething` is the `read_something` flag,
`aborted` is true when a line failed to parse (the `ValueError` escapes the
loop and the `with` block, so the remaining lines are skipped and `os.remove`
is never reached). -/
structure DrainOut where
  state : State
  readSomething : Bool
  aborted : Bool
  trace : List ℚ

/-- One parsed line of the drain loop (source lines 344-358): add
`count = float(line) / (1024 * 1024)` to the per-site sample table and the
kind's total, and move `current_footprint`, raising `max_footprint` on a
malloc that strictly exceeds it. -/
def drainStep (fname : String) (line_no bytei : ℕ) (is_malloc : Bool)
    (s : State) (q : ℚ) : State :=
  let count := q / (1024 * 1024)
  if is_malloc then
    let s := { s with
      memory_malloc_samples := s.memory_malloc_samples.add fname line_no bytei count }
    let s := { s with
      total_memory_malloc_samples := s.total_memory_malloc_samples + count,
      current_footprint := s.current_footprint + count }
    if s.max_footprint < s.current_footprint then
      { s with max_footprint := s.current_footprint }
    else s
  else
    let s := { s with
      memory_free_samples := s.memory_free_samples.add fname line_no bytei count }
    { s with
      total_memory_free_samples := s.total_memory_free_samples + count,
      current_footprint := s.current_footprint - count }

/-- The `for l, count_str in enumerate(f, 1)` loop of `alloc_handler_helper`
(source lines 342-358), one recursion step per file line; an unparseable line
(`none`) aborts the loop with `read_something` already set. -/
def drainLines (fname : String) (line_no bytei : ℕ) (is_malloc : Bool) :
    State → List (Option ℚ) → DrainOut
  | s, [] => ⟨s, false, false, []⟩
  | s, none :: _ => ⟨s, true, true, []⟩
  | s, some q :: rest =>
    let s := drainStep fname line_no bytei is_malloc s q
    let d := drainLines fname line_no bytei is_malloc s rest
    ⟨d.state, true, d.aborted, s.current_footprint :: d.trace⟩

/-- `counter[fname][line_no][bytei] += 1` (source line 367). -/
def bumpCount (s : State) (is_malloc : Bool) (fname : String) (line_no bytei : ℕ) :
    State :=
  if is_malloc then
    let c := updF3 s.memory_malloc_count fname line_no bytei
      (s.memory_malloc_count fname line_no bytei + 1)
    { s with memory_malloc_count := c }
  else
    let c := updF3 s.memory_free_count fname line_no bytei
      (s.memory_free_count fname line_no bytei + 1)
    { s with memory_free_count := c }

/-- Line 336 of the source: `samples = memory_*_samples[fname][line_no]` runs
before the bridge file is opened, so it inserts the kind's top-level key
unconditionally. -/
def helperEntry (s : State) (fname : String) (is_malloc : Bool) : State :=
  if is_malloc then
    { s with memory_malloc_samples := s.memory_malloc_samples.touchTop fname }
  else
    { s with memory_free_samples := s.memory_free_samples.touchTop fname }

/-- `Scalene.alloc_handler_helper(fname, line_no, bytei, is_malloc)` (source
lines 333-367): grab the per-line samples dict (`helperEntry`), drain the
bridge file, unlink it if the drain completed, and bump the per-site event
counter if anything was read (even a line that failed to parse).  `file` is
the bridge file: `none` when it does not exist (`FileNotFoundError`). -/
def alloc_handler_helper (s : State) (fname : String) (line_no bytei : ℕ)
    (is_malloc : Bool) (file : Option (List (Option ℚ))) : HelperOut :=
  let s := helperEntry s fname is_malloc
  match file with
  | none => { state := s, removed := false, trace := [] }
  | some lines =>
    let d := drainLines fname line_no bytei is_malloc s lines
    let s' := if d.readSomething then bumpCount d.state is_malloc fname line_no bytei
              else d.state
    { state := s', removed := !d.aborted, trace := d.trace }

/-- `Scalene.allocation_handler(frame)` (source lines 370-384), which serves
both the malloc and the free signals: record the byte index for the frame's
line, then drain both bridge files.  `none` models an exception escaping the
handler (`should_trace` raising `IndexError` on an empty filename).  The
second component is the ghost footprint trace of the two drains. -/
def allocation_handler (abspath : String → String) (frame : Frame)
    (mallocFile freeFile : Option (List (Option ℚ))) (s : State) :
    Option (State × List ℚ) := do
  let fname := frame.fname
  let st ← should_trace abspath s.program_path fname
  if !st then
    pure (s, [])
  else
    let line_no := frame.f_lineno
    let bytei := frame.f_lasti
    let s :=
      if bytei ∈ s.bytei_map fname line_no then s
      else { s with bytei_map := fun f' l' =>
        if f' = fname ∧ l' = line_no then s.bytei_map fname line_no ++ [bytei]
        else s.bytei_map f' l' }
    let r1 := alloc_handler_helper s fname line_no bytei true mallocFile
    let r2 := alloc_handler_helper r1.state fname line_no bytei false freeFile
    pure (r2.state, r1.trace ++ r2.trace)

/-! ### `list.sort()` on `(time, value)` pairs

Python's `arr.sort()` on a list of two-element lists orders lexicographically.
Lexicographic order on `ℚ × ℚ` is a total order with antisymmetry, so the
sorted result is unique and any correct sorting algorithm models it; we use
insertion sort. -/

/-- Lexicographic comparison on `(time, value)` pairs, as Python's `<=` on
two-element lists. -/
def pairLe (x y : ℚ × ℚ) : Bool := decide (x.1 < y.1 ∨ (x.1 = y.1 ∧ x.2 ≤ y.2))

/-- Insert into a lexicographically sorted list of pairs. -/
def insertPair (x : ℚ × ℚ) : List (ℚ × ℚ) → List (ℚ × ℚ)
  | [] => [x]
  | y :: ys => if pairLe x y then x :: y :: ys else y :: insertPair x ys

/-- `arr.sort()` on a list of `(time, value)` pairs. -/
def sortPairs : List (ℚ × ℚ) → List (ℚ × ℚ)
  | [] => []
  | x :: xs => insertPair x (sortPairs xs)

/-- `Scalene.generate_sparkline(arr, minimum, maximum)` (source lines 437-447):
sort the samples by time **in place**, clamp negative values to zero, and
render.  Returns the sorted list (which the caller's reservoir now holds) next
to the render result; `samples[0:iterations]` is the whole clamped list since
sorting preserves length. -/
def generate_sparkline (arr : List (ℚ × ℚ)) (mini maxi : ℚ) :
    List (ℚ × ℚ) × Option (ℚ × ℚ × List Char) :=
  let sorted := sortPairs arr
  let samples := sorted.map fun p => if 0 < p.2 then p.2 else 0
  (sorted, sparkline samples mini maxi)

/-- One printed line of `output_profiles`, with the dynamic values that reach
the corresponding `print` call.  The format strings are fixed, so two runs
print byte-identical text iff they produce equal `OutLine` lists.  A cell that
the code renders as the empty string (`"" if value == 0 else ...`) is `none`. -/
inductive OutLine where
  | memUsage (spark : List Char) (mx : ℚ)
  | fileHeader (fname : String) (percentCpu : ℚ) (elapsed : ℚ)
  | colHeader1 (mem : Bool)
  | colHeader2 (mem : Bool) (fname : String)
  | separator
  | memLine (lineNo : ℕ) (pyPct cPct : Option ℚ) (growth : Option ℚ)
      (spark : List Char) (text : String)
  | cpuLine (lineNo : ℕ) (pyPct cPct : Option ℚ) (text : String)
  | blank
  deriving DecidableEq

/-- Replace the item list of the per-line footprint reservoir at `(f, l)`
(the in-place `arr.sort()` seen through `reservoir.get()`). -/
def setPerLine (s : State) (f : String) (l : ℕ) (items : List (ℚ × ℚ)) : State :=
  { s with per_line_footprint_samples := fun f' l' =>
      if f' = f ∧ l' = l then { s.per_line_footprint_samples f l with items := items }
      else s.per_line_footprint_samples f' l' }

/-- The per-line memory aggregates of `output_profiles` (source lines
505-524), accumulated over the known byte indices of a line. -/
structure LineAgg where
  mallocMb : ℚ
  mallocCt : ℕ
  avgM : ℚ
  freeMb : ℚ
  freeCt : ℕ
  avgF : ℚ

/-- One iteration of the `for index in Scalene.bytei_map[fname][line_no]`
loop of `output_profiles` (source lines 511-524).  Each defaultdict read
inserts keys into the memory tables. -/
def byteiStep (fname : String) (lineNo : ℕ) (acc : State × LineAgg) (i : ℕ) :
    State × LineAgg :=
  let (s, ag) := acc
  let s := { s with
    memory_malloc_samples := s.memory_malloc_samples.touch fname lineNo i }
  let mallocs := s.memory_malloc_samples.val fname lineNo i
  let mc := s.memory_malloc_count fname lineNo i
  let ag := { ag with
    mallocMb := ag.mallocMb + mallocs
    mallocCt := ag.mallocCt + mc
    avgM := if 0 < mc then ag.avgM + mallocs / (mc : ℚ) else ag.avgM }
  let s := { s with
    memory_free_samples := s.memory_free_samples.touch fname lineNo i }
  let frees := s.memory_free_samples.val fname lineNo i
  let fc := s.memory_free_count fname lineNo i
  let ag := { ag with
    freeMb := ag.freeMb + frees
    freeCt := ag.freeCt + fc
    avgF := if 0 < fc then ag.avgF + frees / (fc : ℚ) else ag.avgF }
  (s, ag)

/-- The byte-index loop of `output_profiles` over a line's known offsets. -/
def byteiLoop (fname : String) (lineNo : ℕ) (s : State) (ag : LineAgg)
    (idxs : List ℕ) : State × LineAgg :=
  idxs.foldl (byteiStep fname lineNo) (s, ag)

/-- The body of the `for line_no, line in enumerate(source_file, 1)` loop of
`output_profiles` (source lines 485-549) for a single source line. -/
def emitLine (dsm : Bool) (s : State) (fname : String) (lineNo : ℕ) (raw : String) :
    Option (State × OutLine) :=
  let line := rstrip raw
  let s := { s with cpu_samples_c := s.cpu_samples_c.touch fname lineNo }
  let nC0 := s.cpu_samples_c.val fname lineNo
  let nC := if nC0 < 0 then 0 else nC0
  let s := { s with cpu_samples_python := s.cpu_samples_python.touch fname lineNo }
  let nPy := s.cpu_samples_python.val fname lineNo
  let pctC := if s.total_cpu_samples ≠ 0 then nC * 100 / s.total_cpu_samples else 0
  let pctPy := if s.total_cpu_samples ≠ 0 then nPy * 100 / s.total_cpu_samples else 0
  let r0 := byteiLoop fname lineNo s ⟨0, 0, 0, 0, 0, 0⟩ (s.bytei_map fname lineNo)
  let s := r0.1
  let ag := r0.2
  let growth0 := ag.avgM - ag.avgF
  let growth := if growth0 < 0 ∧ -1 < growth0 then 0 else growth0
  let usage := if s.total_memory_malloc_samples = 0 then 0
               else ag.mallocMb / s.total_memory_malloc_samples
  let pyCell := if pctPy = 0 then none else some pctPy
  let cCell := if pctC = 0 then none else some pctC
  let growthCell := if growth = 0 ∧ usage = 0 then none else some growth
  if dsm then
    let items := (s.per_line_footprint_samples fname lineNo).items
    if items = [] then
      some (s, OutLine.memLine lineNo pyCell cCell growthCell [] line)
    else
      let g := generate_sparkline items 0 s.max_footprint
      let s := setPerLine s fname lineNo g.1
      match g.2 with
      | none => none
      | some (_, _, sp) =>
        some (s, OutLine.memLine lineNo pyCell cCell growthCell sp line)
  else
    some (s, OutLine.cpuLine lineNo pyCell cCell line)

/-- The source-line loop of `output_profiles`, enumerating from `n`. -/
def emitLines (dsm : Bool) (fname : String) :
    State → ℕ → List String → Option (State × List OutLine)
  | s, _, [] => some (s, [])
  | s, n, raw :: rest => do
    let (s, o) ← emitLine dsm s fname n raw
    let (s, os) ← emitLines dsm fname s (n + 1) rest
    pure (s, o :: os)

/-- The per-file body of `output_profiles` (source lines 468-550): header,
column headers, separator, per-line loop, trailing empty line.  Reading
`cpu_samples_c[fname]` and `cpu_samples_python[fname]` for `this_cpu_samples`
inserts `fname` at the top level of both CPU tables. -/
def emitFile (dsm : Bool) (src : String → List String) (s : State) (fname : String) :
    Option (State × List OutLine) := do
  let s := { s with cpu_samples_c := s.cpu_samples_c.touch1 fname }
  let thisCpu0 := s.cpu_samples_c.fileSum fname
  let s := { s with cpu_samples_python := s.cpu_samples_python.touch1 fname }
  let thisCpu := thisCpu0 + s.cpu_samples_python.fileSum fname
  let pct := if s.total_cpu_samples = 0 then 0 else 100 * thisCpu / s.total_cpu_samples
  let hdr := [OutLine.fileHeader fname pct s.elapsed_time,
    OutLine.colHeader1 dsm, OutLine.colHeader2 dsm fname, OutLine.separator]
  let (s, lines) ← emitLines dsm fname s 1 (src fname)
  pure (s, hdr ++ lines ++ [OutLine.blank])

/-- `sorted(all_instrumented_files)`: the deduplicated union of the top-level
keys of the four sample tables, sorted lexicographically (source lines 459 and
468). -/
def sortedFiles (s : State) : List String :=
  Finset.sort (fun a b => a ≤ b)
    (s.cpu_samples_python.keys1 ++ s.cpu_samples_c.keys1 ++
      s.memory_free_samples.keys1 ++ s.memory_malloc_samples.keys1).toFinset

/-- The `for fname in sorted(all_instrumented_files)` loop. -/
def outputFiles (dsm : Bool) (src : String → List String) :
    State → List String → Option (State × List OutLine)
  | s, [] => some (s, [])
  | s, f :: fs => do
    let (s, o) ← emitFile dsm src s f
    let (s, os) ← outputFiles dsm src s fs
    pure (s, o ++ os)

/-- `Scalene.output_profiles()` (source lines 449-551).  `src f` is the
content of source file `f` as a line list (the claims about re-emission assume
the files are unchanged and readable).  Returns the flag the function returns,
the printed lines, and the mutated class state; `none` models an exception
escaping (only possible from the sparkline renderer). -/
def output_profiles (src : String → List String) (s : State) :
    Option (Bool × List OutLine × State) :=
  if s.total_cpu_samples = 0 ∧ s.total_memory_malloc_samples = 0 ∧
      s.total_memory_free_samples = 0 then
    some (false, [], s)
  else
    let dsm := 0 < s.total_memory_free_samples + s.total_memory_malloc_samples
    let files := sortedFiles s
    (do
      let (s, hdr) ←
        if dsm ∧ s.memory_footprint_samples.items ≠ [] then do
          let g := generate_sparkline s.memory_footprint_samples.items 0 s.max_footprint
          let (_, mx, sp) ← g.2
          let r := { s.memory_footprint_samples with items := g.1 }
          pure ({ s with memory_footprint_samples := r }, [OutLine.memUsage sp mx])
        else
          pure (s, ([] : List OutLine))
      let (s, outs) ← outputFiles dsm src s files
      pure (true, hdr ++ outs, s))

/-- The report branch of `Scalene.main` (source lines 628-631): if
`output_profiles` returned false, print the short-run diagnostic. -/
def mainReportLines (emitted : Bool) : List String :=
  if emitted then []
  else ["Scalene: Program did not run for long enough to profile."]

/-- The effective filename of a frame for the trace filter (source lines
284-289): an empty `co_filename` (eval/compile) falls back to the caller's
`co_filename`; a missing caller (`f_back is None`) raises `AttributeError`. -/
def effectiveFname (fr : Frame) : Option String :=
  if fr.fname.length = 0 then fr.fback else some fr.fname

/-- The frame-filtering loop of `cpu_signal_handler` (source lines 280-292):
keep the frames whose effective filename passes `should_trace`; `none` models
an exception escaping the handler (empty filename with no caller, or
`should_trace` raising on an empty effective filename). -/
def filterFrames (abspath : String → String) (pp : String) :
    List Frame → Option (List Frame)
  | [] => some []
  | fr :: rest => do
    let fn ← effectiveFname fr
    let st ← should_trace abspath pp fn
    let tail ← filterFrames abspath pp rest
    pure (if st then fr :: tail else tail)

/-- One iteration of the per-line footprint roll (source lines 316-318): read
the malloc and free samples at a known byte index of the frame's line (both
defaultdict reads insert keys) and offer `(total_cpu_samples, growth)` to the
per-line footprint reservoir. -/
def rollStep (fname : String) (lineno : ℕ) (rnd : ℕ → Bool × ℕ)
    (acc : State × ℕ) (idx : ℕ) : State × ℕ :=
  let (s, ctr) := acc
  let s := { s with
    memory_malloc_samples := s.memory_malloc_samples.touch fname lineno idx }
  let mv := s.memory_malloc_samples.val fname lineno idx
  let s := { s with
    memory_free_samples := s.memory_free_samples.touch fname lineno idx }
  let fv := s.memory_free_samples.val fname lineno idx
  let growth := mv - fv
  let r := (s.per_line_footprint_samples fname lineno).add
    (s.total_cpu_samples, growth) (rnd ctr).1 (rnd ctr).2
  let s := { s with per_line_footprint_samples := fun f' l' =>
    if f' = fname ∧ l' = lineno then r else s.per_line_footprint_samples f' l' }
  (s, ctr + 1)

/-- One iteration of the attribution loop of `cpu_signal_handler` (source
lines 297-318) for frame `fr`: weighted CPU attribution (identity comparison
with the signalled frame decides the main-thread case) followed by rolling the
per-line memory growth into the per-line footprint reservoir for every known
byte index of the frame's line.  `n = len(new_frames)`; `rnd` supplies the
reservoir's random choices, indexed by the threaded counter. -/
def attrFrame (thisF : Frame) (python_time c_time total_time : ℚ) (n : ℕ)
    (rnd : ℕ → Bool × ℕ) (acc : State × ℕ) (fr : Frame) : State × ℕ :=
  let (s, ctr) := acc
  let fname := fr.fname
  let s :=
    if fr = thisF then
      let s := { s with cpu_samples_python :=
        s.cpu_samples_python.add fname fr.f_lineno (python_time / (n : ℚ)) }
      { s with cpu_samples_c :=
        s.cpu_samples_c.add fname fr.f_lineno (c_time / (n : ℚ)) }
    else
      if is_call_function fr.code fr.f_lasti then
        { s with cpu_samples_c :=
          s.cpu_samples_c.add fname fr.f_lineno (total_time / (n : ℚ)) }
      else
        { s with cpu_samples_python :=
          s.cpu_samples_python.add fname fr.f_lineno (total_time / (n : ℚ)) }
  (s.bytei_map fname fr.f_lineno).foldl (rollStep fname fr.f_lineno rnd) (s, ctr)

/-- One offer of `(now, current_footprint)` to the global footprint reservoir
(source lines 325-326). -/
def footSampleStep (now : ℚ) (rnd : ℕ → Bool × ℕ) (acc : State × ℕ) (_ : ℕ) :
    State × ℕ :=
  let (s, ctr) := acc
  ({ s with memory_footprint_samples :=
      s.memory_footprint_samples.add (now, s.current_footprint) (rnd ctr).1 (rnd ctr).2 },
    ctr + 1)

/-- `Scalene.cpu_signal_handler(_, this_frame)` (source lines 237-331).
Oracle inputs: `now` is the `gettime()` read at entry; `tStop` the read inside
`Scalene.stop()`, `tStart1`/`tStart2` the reads inside `enable_signals` and at
the end of `Scalene.start()` (these three are consumed only when a periodic
report is due); `tEnd` the read at line 330; `rnd` the reservoir randomness;
`others` is `[sys._current_frames().get(t.ident, None) for t in
threading.enumerate()]`.  `none` models an exception escaping the handler. -/
def cpu_signal_handler (abspath : String → String) (src : String → List String)
    (now tStop tStart1 tStart2 tEnd : ℚ) (rnd : ℕ → Bool × ℕ)
    (this_frame : Frame) (others : List (Option Frame)) (s : State) :
    Option State := do
  let s ←
    if s.next_output_time ≤ (now : WithTop ℚ) then do
      let s := { s with next_output_time := s.next_output_time + s.output_profile_interval }
      let s := { s with elapsed_time := tStop - s.elapsed_time }
      let (_, _, s) ← output_profiles src s
      pure { s with last_signal_time := tStart1, elapsed_time := tStart2 }
    else
      pure s
  let elapsed := now - s.last_signal_time
  let python_time := s.last_signal_interval
  let c_time0 := elapsed - python_time
  let c_time := if c_time0 < 0 then 0 else c_time0
  let frames := this_frame :: others.filterMap id
  let new_frames ← filterFrames abspath s.program_path frames
  let total_time := python_time + c_time
  let n := new_frames.length
  let acc1 : State × ℕ :=
    new_frames.foldl (attrFrame this_frame python_time c_time total_time n rnd) (s, 0)
  let ctr := acc1.2
  let s := { acc1.1 with total_cpu_samples := acc1.1.total_cpu_samples + total_time }
  if s.last_signal_interval = (0 : ℚ) then none
  else
    let k := (pyRound (elapsed / s.last_signal_interval)).toNat
    let (s, _) := (List.range k).foldl (footSampleStep now rnd) (s, ctr)
    pure { s with last_signal_time := tEnd }

/-- A handler delivery: one CPU tick, or one malloc/free signal (the latter
given the signalled frame and the two bridge files' contents at that moment). -/
inductive Event where
  | cpu (now tStop tStart1 tStart2 tEnd : ℚ) (thisF : Frame) (others : List (Option Frame))
  | alloc (frame : Frame) (mallocFile freeFile : Option (List (Option ℚ)))

/-- Deliver one event; the second component is the ghost footprint trace. -/
def stepEvent (abspath : String → String) (src : String → List String)
    (rnd : ℕ → Bool × ℕ) (s : State) : Event → Option (State × List ℚ)
  | Event.cpu now tStop tStart1 tStart2 tEnd thisF others =>
    (cpu_signal_handler abspath src now tStop tStart1 tStart2 tEnd rnd thisF others s).map
      fun s' => (s', [])
  | Event.alloc frame mf ff => allocation_handler abspath frame mf ff s

/-- Deliver a sequence of events, concatenating the ghost footprint traces. -/
def runEvents (abspath : String → String) (src : String → List String)
    (rnd : ℕ → Bool × ℕ) : State → List Event → Option (State × List ℚ)
  | s, [] => some (s, [])
  | s, e :: es => do
    let (s1, t1) ← stepEvent abspath src rnd s e
    let (s2, t2) ← runEvents abspath src rnd s1 es
    pure (s2, t1 ++ t2)

/-! ## Spec-side definitions

These definitions follow the *spec's words* (not the source); they exist only
to be compared with the source-derived definitions above. -/

/-- `pat` is a prefix of `s` (on the character lists, so that it evaluates in
the kernel). -/
def strPref (pat s : String) : Bool := decide (List.IsPrefix pat.data s.data)

/-- Follows the spec's words: `p` "is a descendant of" directory `d`. -/
def isDescendant (d p : String) : Bool := strPref (d ++ "/") p

/-- Follows claim C3's words: false for a path starting with `<`, containing
`site-packages`, lying under the standard-library prefix, or equal to the
profiler's own source file; otherwise true iff the absolute form is a
descendant of `program_path`. -/
def should_trace_claim (abspath : String → String)
    (program_path stdlibPref own_file : String) (p : String) : Bool :=
  if strPref "<" p ∨ substr "site-packages" p ∨ strPref stdlibPref p ∨ p = own_file
  then false
  else isDescendant program_path (abspath p)

/-- Follows claim C4's words: the bar at index
`clamp(⌊(n − min)/extent·8⌋, 0, 7)` with `extent = max(max − min, 1)`. -/
def sparkCharClaim (mn mx n : ℚ) : Char :=
  let extent := max (mx - mn) 1
  barList.getD (min (7 : ℤ) (max 0 ⌊(n - mn) / extent * 8⌋)).toNat '▁'

/-- The footprint invariant of claim C2. -/
def footInv (s : State) : Prop :=
  s.current_footprint = s.total_memory_malloc_samples - s.total_memory_free_samples ∧
  s.current_footprint ≤ s.max_footprint

/-- Every parsed line of a bridge file is a non-negative byte count (the
allocator's interface contract, spec §6). -/
def filesNN : Option (List (Option ℚ)) → Prop
  | none => True
  | some ls => ∀ q : ℚ, some q ∈ ls → 0 ≤ q

/-- A malloc/free delivery whose two bridge files satisfy `filesNN`. -/
def Event.nonneg : Event → Prop
  | .cpu _ _ _ _ _ _ _ => True
  | .alloc _ mf ff => filesNN mf ∧ filesNN ff

/-- Events that are malloc/free deliveries (claim C2 quantifies over these). -/
def Event.isAlloc : Event → Prop
  | .cpu _ _ _ _ _ _ _ => False
  | .alloc _ _ _ => True

/-- The per-frame CPU delta that claim C1 ascribes to the Python (interpreter)
counter at `(f, l)`: `python_time / N` for the main frame at its own
`(file, line)`, `total_time / N` for another frame not sitting in a
call-function opcode. -/
def pyContrib (thisF : Frame) (python_time total_time : ℚ) (n : ℕ)
    (f : String) (l : ℕ) (fr : Frame) : ℚ :=
  if fr = thisF then
    (if f = fr.fname ∧ l = fr.f_lineno then python_time / (n : ℚ) else 0)
  else if is_call_function fr.code fr.f_lasti then 0
  else (if f = fr.fname ∧ l = fr.f_lineno then total_time / (n : ℚ) else 0)

/-- The per-frame CPU delta that claim C1 ascribes to the C (native) counter
at `(f, l)`. -/
def cContrib (thisF : Frame) (c_time total_time : ℚ) (n : ℕ)
    (f : String) (l : ℕ) (fr : Frame) : ℚ :=
  if fr = thisF then
    (if f = fr.fname ∧ l = fr.f_lineno then c_time / (n : ℚ) else 0)
  else if is_call_function fr.code fr.f_lasti then
    (if f = fr.fname ∧ l = fr.f_lineno then total_time / (n : ℚ) else 0)
  else 0

/-- Claim C7's invariant: every byte offset appearing as a key under the
malloc-samples or free-samples tables at some `(file, line)` is a member of
`bytei_map` at that same `(file, line)`. -/
def KeysInv (s : State) : Prop :=
  ∀ (f : String) (l i : ℕ),
    (i ∈ s.memory_malloc_samples.innerKeys f l ∨
      i ∈ s.memory_free_samples.innerKeys f l) →
    i ∈ s.bytei_map f l

/-- The concatenation whose `toFinset` is `all_instrumented_files` (source
line 459). -/
def unionKeys (s : State) : List String :=
  s.cpu_samples_python.keys1 ++ s.cpu_samples_c.keys1 ++
    s.memory_free_samples.keys1 ++ s.memory_malloc_samples.keys1

/-- The set of instrumented files of a state. -/
def filesOf (s : State) : Finset String := (unionKeys s).toFinset

/-- The observables of the reporter: everything `output_profiles` reads from
the class state.  Reservoir item lists are compared after sorting, because the
report sorts them in place before rendering. -/
structure ObsEq (p q : State) : Prop where
  totC : p.total_cpu_samples = q.total_cpu_samples
  totM : p.total_memory_malloc_samples = q.total_memory_malloc_samples
  totF : p.total_memory_free_samples = q.total_memory_free_samples
  elap : p.elapsed_time = q.elapsed_time
  mfoot : p.max_footprint = q.max_footprint
  valP : p.cpu_samples_python.val = q.cpu_samples_python.val
  valC : p.cpu_samples_c.val = q.cpu_samples_c.val
  valM : p.memory_malloc_samples.val = q.memory_malloc_samples.val
  valF : p.memory_free_samples.val = q.memory_free_samples.val
  cntM : p.memory_malloc_count = q.memory_malloc_count
  cntF : p.memory_free_count = q.memory_free_count
  bytei : p.bytei_map = q.bytei_map
  files : filesOf p = filesOf q
  sumP : ∀ f, p.cpu_samples_python.fileSum f = q.cpu_samples_python.fileSum f
  sumC : ∀ f, p.cpu_samples_c.fileSum f = q.cpu_samples_c.fileSum f
  foot : sortPairs p.memory_footprint_samples.items
      = sortPairs q.memory_footprint_samples.items
  perline : ∀ f n, sortPairs (p.per_line_footprint_samples f n).items
      = sortPairs (q.per_line_footprint_samples f n).items

/-- Both CPU sample tables are well-formed defaultdict models: values at keys
never inserted are the default `0`. -/
def CpuWF (s : State) : Prop := s.cpu_samples_python.WF ∧ s.cpu_samples_c.WF

/-- The printed content of one report line, as a pure function of the
observables of the state (the defaultdict reads of `emitLine` do not change
the values this reads). -/
def lineObs (dsm : Bool) (s : State) (fname : String) (lineNo : ℕ) (raw : String) :
    Option OutLine :=
  let line := rstrip raw
  let nC0 := s.cpu_samples_c.val fname lineNo
  let nC := if nC0 < 0 then 0 else nC0
  let nPy := s.cpu_samples_python.val fname lineNo
  let pctC := if s.total_cpu_samples ≠ 0 then nC * 100 / s.total_cpu_samples else 0
  let pctPy := if s.total_cpu_samples ≠ 0 then nPy * 100 / s.total_cpu_samples else 0
  let ag := (byteiLoop fname lineNo s ⟨0, 0, 0, 0, 0, 0⟩ (s.bytei_map fname lineNo)).2
  let growth0 := ag.avgM - ag.avgF
  let growth := if growth0 < 0 ∧ -1 < growth0 then 0 else growth0
  let usage := if s.total_memory_malloc_samples = 0 then 0
               else ag.mallocMb / s.total_memory_malloc_samples
  let pyCell := if pctPy = 0 then none else some pctPy
  let cCell := if pctC = 0 then none else some pctC
  let growthCell := if growth = 0 ∧ usage = 0 then none else some growth
  if dsm then
    let items := (s.per_line_footprint_samples fname lineNo).items
    if items = [] then
      some (OutLine.memLine lineNo pyCell cCell growthCell [] line)
    else
      match (generate_sparkline items 0 s.max_footprint).2 with
      | none => none
      | some (_, _, sp) =>
        some (OutLine.memLine lineNo pyCell cCell growthCell sp line)
  else
    some (OutLine.cpuLine lineNo pyCell cCell line)

/-! ## Claim C3 -/

/-- Claim C3 is false as stated: with `abspath = id` and
`program_path = "/a"`, (1) `"/b/a/c.py"` is traced by the code although it is
not a descendant of `"/a"` (the code tests substring containment of
`program_path`, not descent); (2) `"/a/myscalene.py"` is rejected by the code
although it is a descendant and not the profiler's own file (the code tests
the substring `scalene.py`); (3) `"/a/usr/lib/python3"` is rejected although
it does not lie under the prefix `/usr/lib/python` (again a substring test). -/
theorem claim3_counterexample :
    (should_trace id "/a" "/b/a/c.py" = some true ∧
      should_trace_claim id "/a" "/usr/lib/python" "/a/scalene.py" "/b/a/c.py" = false) ∧
    (should_trace id "/a" "/a/myscalene.py" = some false ∧
      should_trace_claim id "/a" "/usr/lib/python" "/a/scalene.py" "/a/myscalene.py" = true) ∧
    (should_trace id "/a" "/a/usr/lib/python3" = some false ∧
      should_trace_claim id "/a" "/usr/lib/python" "/a/scalene.py" "/a/usr/lib/python3" = true) := by
  decide

/-- Unfolding of `should_trace` on a non-empty character list. -/
theorem should_trace_cons (a : String → String) (pp : String) (c : Char) (cs : List Char) :
    should_trace a pp ⟨c :: cs⟩ =
      if c = '<' ∨ substr "site-packages" ⟨c :: cs⟩ ∨ substr "/usr/lib/python" ⟨c :: cs⟩
      then some false
      else if substr "scalene.py" ⟨c :: cs⟩ then some false
      else some (substr pp (a ⟨c :: cs⟩)) := rfl

/-- Claim C3, amended to what the code does: for every non-empty path `p`,
`should_trace(p)` returns a boolean, which is true iff `p` does not start
with `<`, does not contain the substring `site-packages`, does not contain
the substring `/usr/lib/python`, does not contain the substring `scalene.py`,
and `program_path` occurs as a substring of the absolute form of `p`. -/
theorem claim3_amended_filter (a : String → String) (pp p : String) (h : p ≠ "") :
    ∃ b, should_trace a pp p = some b ∧
      (b = true ↔ p.data.head? ≠ some '<' ∧ substr "site-packages" p = false ∧
        substr "/usr/lib/python" p = false ∧ substr "scalene.py" p = false ∧
        substr pp (a p) = true) := by
  obtain ⟨d⟩ := p
  cases d with
  | nil => exact absurd (by decide) h
  | cons c cs =>
    rw [should_trace_cons]
    split_ifs with h1 h2
    · refine ⟨false, rfl, ?_⟩
      simp only [Bool.false_eq_true, false_iff]
      rintro ⟨hc, hsp, hul, -, -⟩
      rcases h1 with hx | hx | hx
      · exact hc (by simp [hx])
      · simp [hsp] at hx
      · simp [hul] at hx
    · refine ⟨false, rfl, ?_⟩
      simp only [Bool.false_eq_true, false_iff]
      rintro ⟨-, -, -, hsc, -⟩
      simp [hsc] at h2
    · push_neg at h1
      obtain ⟨hA, hB, hC⟩ := h1
      refine ⟨substr pp (a ⟨c :: cs⟩), rfl, ?_⟩
      constructor
      · intro hb
        exact ⟨by simp [hA], Bool.eq_false_iff.mpr hB, Bool.eq_false_iff.mpr hC,
          Bool.eq_false_iff.mpr h2, hb⟩
      · rintro ⟨-, -, -, -, hb⟩
        exact hb

/-- Witness for `claim3_amended_filter` at a concrete path. -/
theorem claim3_witness :
    ∃ b, should_trace id "/a" "/a/x.py" = some b ∧
      (b = true ↔ ("/a/x.py" : String).data.head? ≠ some '<' ∧
        substr "site-packages" "/a/x.py" = false ∧
        substr "/usr/lib/python" "/a/x.py" = false ∧
        substr "scalene.py" "/a/x.py" = false ∧
        substr "/a" (id "/a/x.py") = true) :=
  claim3_amended_filter id "/a" "/a/x.py" (by decide)

/-! ## Claim C4 -/

/-- An element returned by Python indexing belongs to the list. -/
theorem pyIndexGet_mem {α : Type} (l : List α) (i : ℤ) (x : α)
    (h : pyIndexGet l i = some x) : x ∈ l := by
  unfold pyIndexGet at h
  split_ifs at h
  · exact List.get?_mem h
  · exact List.get?_mem h

/-- Soundness of the character generator of `sparkline`: on success, one
character per input, each from the bar alphabet, each given by `sparkChar`. -/
theorem sparkChars_sound (mn extent : ℚ) :
    ∀ (ns : List ℚ) (cs : List Char), sparkChars mn extent ns = some cs →
      cs.length = ns.length ∧ (∀ c ∈ cs, c ∈ barList) ∧
        ∀ k (h1 : k < ns.length) (h2 : k < cs.length),
          sparkChar mn extent (ns.get ⟨k, h1⟩) = some (cs.get ⟨k, h2⟩) := by
  intro ns
  induction ns with
  | nil =>
    intro cs h
    simp only [sparkChars] at h
    obtain rfl : cs = [] := by simpa using h.symm
    exact ⟨rfl, by simp, fun k h1 _ => absurd h1 (by simp)⟩
  | cons n ns ih =>
    intro cs h
    simp only [sparkChars, Option.pure_def, Option.bind_eq_bind, Option.bind_eq_some] at h
    obtain ⟨c, hc, cs', hcs, heq⟩ := h
    obtain rfl : c :: cs' = cs := by simpa using heq
    obtain ⟨hlen, hmem, hidx⟩ := ih cs' hcs
    refine ⟨by simp [hlen], ?_, ?_⟩
    · intro x hx
      rcases List.mem_cons.mp hx with rfl | hx
      · exact pyIndexGet_mem _ _ _ hc
      · exact hmem x hx
    · intro k h1 h2
      cases k with
      | zero => simpa using hc
      | succ k => simpa using hidx k (by simpa using h1) (by simpa using h2)

/-- Claim C4 is false as stated, at three concrete inputs: (1) with data `[0]`
and fixed bounds `(1, 9)` the code renders `'█'` (the index `-1` wraps to the
end of the bar string: there is no lower clamp at 0), while the claim's
formula gives `'▁'`; (2) the empty sequence with defaulted bounds raises
`ValueError` (`min([])`) instead of returning an empty string with zero
bounds; (3) with data `[3]` and fixed bounds `(5, 2)` the extent is `-3`, not
`max(2 - 5, 1) = 1`, and the code renders `'▆'` while the claim gives `'▁'`. -/
theorem claim4_counterexample :
    (sparkline [0] 1 9 = some (1, 9, ['█']) ∧ sparkCharClaim 1 9 0 = '▁') ∧
    sparkline [] (-1) (-1) = none ∧
    (sparkline [3] 5 2 = some (5, 2, ['▆']) ∧ sparkCharClaim 5 2 3 = '▁') := by
  refine ⟨⟨?_, ?_⟩, ?_, ?_, ?_⟩
  · have h1 : ((0 : ℚ) - 1) / 8 * 8 = -1 := by norm_num
    have h2 : ratTrunc (-1) = -1 := by
      rw [ratTrunc, if_neg (by norm_num)]
      norm_num
    simp only [sparkline, sparkChars, sparkChar]
    norm_num [h1, h2, pyIndexGet, barList]
    decide
  · have h1 : max ((2 : ℚ) - 1) 1 = 1 := by norm_num
    have h2 : ((0 : ℚ) - 1) / 1 * 8 = -8 := by norm_num
    simp only [sparkCharClaim]
    norm_num [h1, h2, barList]
  · simp [sparkline]
  · have h1 : ((3 : ℚ) - 5) / (2 - 5) * 8 = 16 / 3 := by norm_num
    have h2 : ratTrunc (16 / 3) = 5 := by
      rw [ratTrunc, if_pos (by norm_num)]
      norm_num
    simp only [sparkline, sparkChars, sparkChar]
    norm_num [h1, h2, pyIndexGet, barList]
    decide
  · have h1 : max ((2 : ℚ) - 5) 1 = 1 := by norm_num
    have h2 : ((3 : ℚ) - 5) / 1 * 8 = -16 := by norm_num
    simp only [sparkCharClaim]
    norm_num [h1, h2, barList]

/-- Claim C4, amended to what the code does.  On success, `sparkline` returns
one character per input, each from the 8-character bar alphabet; the bounds
are taken from the data exactly for those of `fixed_min`/`fixed_max` equal to
`-1`; each element `n` maps to the bar selected by Python indexing (negative
indices wrap from the end) at index `min(7, int((n − mn)/extent·8))`, where
`int` truncates toward zero and `extent = mx − mn`, replaced by 1 when zero.
The empty sequence raises `ValueError` when either bound is defaulted, and
returns `(fixed_min, fixed_max, "")` (not zero bounds) otherwise. -/
theorem claim4_amended_sparkline :
    (∀ (xs : List ℚ) (fmin fmax mn mx : ℚ) (cs : List Char),
        sparkline xs fmin fmax = some (mn, mx, cs) →
        cs.length = xs.length ∧
        (∀ c ∈ cs, c ∈ barList) ∧
        ((fmin = -1 → xs.min? = some mn) ∧ (fmin ≠ -1 → mn = fmin)) ∧
        ((fmax = -1 → xs.max? = some mx) ∧ (fmax ≠ -1 → mx = fmax)) ∧
        (∀ k (h1 : k < xs.length) (h2 : k < cs.length),
          sparkChar mn (if mx - mn = 0 then 1 else mx - mn) (xs.get ⟨k, h1⟩)
            = some (cs.get ⟨k, h2⟩))) ∧
    (∀ fmin fmax : ℚ, (fmin = -1 ∨ fmax = -1) → sparkline [] fmin fmax = none) ∧
    (∀ fmin fmax : ℚ, fmin ≠ -1 → fmax ≠ -1 →
      sparkline [] fmin fmax = some (fmin, fmax, [])) := by
  refine ⟨?_, ?_, ?_⟩
  · intro xs fmin fmax mn mx cs h
    unfold sparkline at h
    cases hmn : (if fmin = -1 then xs.min? else some fmin) with
    | none => rw [hmn] at h; exact Option.noConfusion h
    | some mnv =>
      simp only [hmn] at h
      cases hmx : (if fmax = -1 then xs.max? else some fmax) with
      | none => rw [hmx] at h; exact Option.noConfusion h
      | some mxv =>
        simp only [hmx] at h
        cases hcs : sparkChars mnv (if mxv - mnv = 0 then 1 else mxv - mnv) xs with
        | none => rw [hcs] at h; exact Option.noConfusion h
        | some csv =>
          rw [hcs] at h
          obtain ⟨rfl, rfl, rfl⟩ : mnv = mn ∧ mxv = mx ∧ csv = cs := by
            simpa [Prod.ext_iff] using h
          obtain ⟨hlen, hmem, hidx⟩ := sparkChars_sound _ _ _ _ hcs
          refine ⟨hlen, hmem, ⟨?_, ?_⟩, ⟨?_, ?_⟩, hidx⟩
          · intro hf; rw [if_pos hf] at hmn; exact hmn
          · intro hf; rw [if_neg hf] at hmn; simpa using hmn.symm
          · intro hf; rw [if_pos hf] at hmx; exact hmx
          · intro hf; rw [if_neg hf] at hmx; simpa using hmx.symm
  · intro fmin fmax h
    by_cases hf : fmin = -1
    · simp [sparkline, hf]
    · rcases h with h | h
      · exact absurd h hf
      · simp [sparkline, hf, h]
  · intro fmin fmax h1 h2
    simp [sparkline, h1, h2, sparkChars]

/-- Witness for `claim4_amended_sparkline` at the concrete input `[0, 8]` with
defaulted bounds. -/
theorem claim4_witness :
    (['▁', '█'] : List Char).length = ([0, 8] : List ℚ).length ∧
      ([0, 8] : List ℚ).min? = some 0 := by
  have heval : sparkline [0, 8] (-1) (-1) = some (0, 8, ['▁', '█']) := by
    have h1 : ratTrunc 0 = 0 := by
      rw [ratTrunc, if_pos le_rfl]; norm_num
    have h2 : ratTrunc 8 = 8 := by
      rw [ratTrunc, if_pos (by norm_num)]; norm_num
    simp only [sparkline, sparkChars, sparkChar, List.min?, List.max?]
    norm_num [h1, h2, pyIndexGet, barList]
    decide
  have h := claim4_amended_sparkline.1 [0, 8] (-1) (-1) 0 8 ['▁', '█'] heval
  exact ⟨h.1, h.2.2.1.1 rfl⟩

/-! ## Claim C10 -/

/-- `should_trace` returns a boolean on every non-empty path. -/
theorem should_trace_total (a : String → String) (pp p : String) (h : p ≠ "") :
    (should_trace a pp p).isSome := by
  obtain ⟨d⟩ := p
  cases d with
  | nil => exact absurd (by decide) h
  | cons c cs =>
    rw [should_trace_cons]
    split_ifs <;> rfl

/-- Claim C10: `should_trace` is total exactly on non-empty paths — on the
empty string it raises `IndexError` from `filename[0]` (modelled `none`)
instead of returning a boolean; the allocation handler feeds the signalled
frame's filename to `should_trace` with no empty-filename guard, so an empty
filename makes the whole handler raise, whereas the CPU handler's frame
filter substitutes the caller's filename and succeeds on the same frame. -/
theorem claim10_should_trace_partiality :
    (∀ (a : String → String) (pp : String), should_trace a pp "" = none) ∧
    (∀ (a : String → String) (pp p : String), p ≠ "" → (should_trace a pp p).isSome) ∧
    (∀ (a : String → String) (fr : Frame) (mf ff : Option (List (Option ℚ))) (s : State),
      fr.fname = "" → allocation_handler a fr mf ff s = none) ∧
    (∀ (a : String → String) (pp : String) (fr : Frame) (pf : String),
      fr.fname = "" → fr.fback = some pf → pf ≠ "" →
      (filterFrames a pp [fr]).isSome) := by
  refine ⟨fun a pp => rfl, should_trace_total, ?_, ?_⟩
  · intro a fr mf ff s hf
    unfold allocation_handler
    rw [hf]
    rfl
  · intro a pp fr pf hf hb hpf
    have he : effectiveFname fr = some pf := by
      unfold effectiveFname
      rw [hf, hb]
      simp
    obtain ⟨b, hst⟩ := Option.isSome_iff_exists.mp (should_trace_total a pp pf hpf)
    simp [filterFrames, he, hst]

/-- Witness for `claim10_should_trace_partiality` at concrete inputs: a frame
whose `co_filename` is empty crashes the allocation handler but passes the CPU
handler's filter via its caller. -/
theorem claim10_witness :
    (should_trace id "/a" "/a/x.py").isSome ∧
    allocation_handler id ⟨0, "", 1, 0, [], some "/a/x.py"⟩ none none
      (initState "/a" 0) = none ∧
    (filterFrames id "/a" [⟨0, "", 1, 0, [], some "/a/x.py"⟩]).isSome := by
  have h := claim10_should_trace_partiality
  exact ⟨h.2.1 id "/a" "/a/x.py" (by decide),
    h.2.2.1 id _ none none _ rfl,
    h.2.2.2 id "/a" _ "/a/x.py" rfl rfl (by decide)⟩

/-! ## Drain-loop lemmas (claims C5, C6) -/

/-- A drain whose line list is non-empty has read something, whether or not
the first line parsed. -/
theorem drainLines_readSomething (fname : String) (l i : ℕ) (b : Bool) (s : State)
    (lines : List (Option ℚ)) (h : lines ≠ []) :
    (drainLines fname l i b s lines).readSomething = true := by
  cases lines with
  | nil => exact absurd rfl h
  | cons x rest => cases x <;> simp [drainLines]

/-- A single drain step never touches the per-site event counters, the CPU
tables, the byte-index map, the CPU total, or the reservoirs. -/
theorem drainStep_untouched (fname : String) (l i : ℕ) (b : Bool) (s : State) (q : ℚ) :
    (drainStep fname l i b s q).memory_malloc_count = s.memory_malloc_count ∧
    (drainStep fname l i b s q).memory_free_count = s.memory_free_count ∧
    (drainStep fname l i b s q).cpu_samples_python = s.cpu_samples_python ∧
    (drainStep fname l i b s q).cpu_samples_c = s.cpu_samples_c ∧
    (drainStep fname l i b s q).bytei_map = s.bytei_map ∧
    (drainStep fname l i b s q).total_cpu_samples = s.total_cpu_samples ∧
    (drainStep fname l i b s q).per_line_footprint_samples
      = s.per_line_footprint_samples ∧
    (drainStep fname l i b s q).memory_footprint_samples
      = s.memory_footprint_samples := by
  cases b with
  | false => exact ⟨rfl, rfl, rfl, rfl, rfl, rfl, rfl, rfl⟩
  | true =>
    simp only [drainStep, eq_self_iff_true, if_true]
    split_ifs <;> exact ⟨rfl, rfl, rfl, rfl, rfl, rfl, rfl, rfl⟩

/-- The drain loop never touches the per-site event counters, the CPU tables,
the byte-index map, the CPU total, or the reservoirs. -/
theorem drainLines_untouched (fname : String) (l i : ℕ) (b : Bool) :
    ∀ (lines : List (Option ℚ)) (s : State),
      (drainLines fname l i b s lines).state.memory_malloc_count = s.memory_malloc_count ∧
      (drainLines fname l i b s lines).state.memory_free_count = s.memory_free_count ∧
      (drainLines fname l i b s lines).state.cpu_samples_python = s.cpu_samples_python ∧
      (drainLines fname l i b s lines).state.cpu_samples_c = s.cpu_samples_c ∧
      (drainLines fname l i b s lines).state.bytei_map = s.bytei_map ∧
      (drainLines fname l i b s lines).state.total_cpu_samples = s.total_cpu_samples ∧
      (drainLines fname l i b s lines).state.per_line_footprint_samples
        = s.per_line_footprint_samples ∧
      (drainLines fname l i b s lines).state.memory_footprint_samples
        = s.memory_footprint_samples := by
  intro lines
  induction lines with
  | nil => intro s; exact ⟨rfl, rfl, rfl, rfl, rfl, rfl, rfl, rfl⟩
  | cons x rest ih =>
    intro s
    cases x with
    | none => exact ⟨rfl, rfl, rfl, rfl, rfl, rfl, rfl, rfl⟩
    | some q =>
      simp only [drainLines]
      obtain ⟨u1, u2, u3, u4, u5, u6, u7, u8⟩ := drainStep_untouched fname l i b s q
      obtain ⟨v1, v2, v3, v4, v5, v6, v7, v8⟩ := ih (drainStep fname l i b s q)
      exact ⟨v1.trans u1, v2.trans u2, v3.trans u3, v4.trans u4, v5.trans u5,
        v6.trans u6, v7.trans u7, v8.trans u8⟩

/-- A malformed line aborts the drain: the lines after it are never processed
and the result is that of draining only the well-formed prefix, with the
`aborted` flag set. -/
theorem drainLines_malformed (fname : String) (l i : ℕ) (b : Bool)
    (pre : List ℚ) (post : List (Option ℚ)) :
    ∀ s : State,
      drainLines fname l i b s (pre.map some ++ none :: post) =
        ⟨(drainLines fname l i b s (pre.map some)).state, true, true,
          (drainLines fname l i b s (pre.map some)).trace⟩ := by
  induction pre with
  | nil => intro s; rfl
  | cons q qs ih =>
    intro s
    simp only [List.map_cons, List.cons_append, drainLines, List.append_eq]
    rw [ih]

/-- `bumpCount` changes exactly the requested site of the requested kind. -/
theorem bumpCount_spec (s : State) (b : Bool) (f : String) (l i : ℕ) :
    (bumpCount s b f l i).memory_malloc_count f l i
        = s.memory_malloc_count f l i + (if b then 1 else 0) ∧
    (bumpCount s b f l i).memory_free_count f l i
        = s.memory_free_count f l i + (if b then 0 else 1) ∧
    (∀ f' l' i', ¬(f' = f ∧ l' = l ∧ i' = i) →
      (bumpCount s b f l i).memory_malloc_count f' l' i' = s.memory_malloc_count f' l' i' ∧
      (bumpCount s b f l i).memory_free_count f' l' i' = s.memory_free_count f' l' i') := by
  cases b <;>
    refine ⟨by simp [bumpCount, updF3], by simp [bumpCount, updF3], ?_⟩ <;>
    intro f' l' i' hne <;>
    simp [bumpCount, updF3, hne]

/-! ## Claim C5 -/

/-- Claim C5 is false as stated: draining a malloc bridge file whose lines
parse as `1048576`, (malformed), `2097152` accumulates only the first line
(1 MB) — the lines after the malformed one are discarded because the
`ValueError` aborts the loop — and the file is *not* unlinked, because the
exception skips `os.remove`. -/
theorem claim5_counterexample :
    (alloc_handler_helper (initState "/a" 0) "f.py" 1 0 true
        (some [some 1048576, none, some 2097152])).state.total_memory_malloc_samples
      = 1 ∧
    (alloc_handler_helper (initState "/a" 0) "f.py" 1 0 true
        (some [some 1048576, none, some 2097152])).removed = false := by
  have h1 : (1048576 : ℚ) / (1024 * 1024) = 1 := by norm_num
  constructor
  · simp only [alloc_handler_helper, drainLines, drainStep, helperEntry, initState]
    norm_num [bumpCount]
  · simp only [alloc_handler_helper, drainLines]
    rfl

/-- Claim C5, amended to what the code does.  No exception escapes the
handler, and a missing bridge file is silently ignored: nothing is
accumulated, no count is bumped and nothing is unlinked.  But a malformed
line is not skipped: it aborts the drain of that file, so the lines before it
are accumulated, the lines after it are discarded, the file is left on disk
(`os.remove` is skipped by the exception), and the per-site event count is
still incremented because something was read. -/
theorem claim5_amended_drain :
    (∀ (s : State) (f : String) (l i : ℕ) (b : Bool),
      alloc_handler_helper s f l i b none
        = { state := helperEntry s f b, removed := false, trace := [] } ∧
      (helperEntry s f b).memory_malloc_samples.val = s.memory_malloc_samples.val ∧
      (helperEntry s f b).memory_free_samples.val = s.memory_free_samples.val ∧
      (helperEntry s f b).memory_malloc_count = s.memory_malloc_count ∧
      (helperEntry s f b).memory_free_count = s.memory_free_count ∧
      (helperEntry s f b).total_memory_malloc_samples = s.total_memory_malloc_samples ∧
      (helperEntry s f b).total_memory_free_samples = s.total_memory_free_samples ∧
      (helperEntry s f b).current_footprint = s.current_footprint ∧
      (helperEntry s f b).max_footprint = s.max_footprint) ∧
    (∀ (s : State) (f : String) (l i : ℕ) (b : Bool) (pre : List ℚ)
        (post : List (Option ℚ)),
      alloc_handler_helper s f l i b (some (pre.map some ++ none :: post))
        = { state := bumpCount
              (drainLines f l i b (helperEntry s f b) (pre.map some)).state b f l i,
            removed := false,
            trace := (drainLines f l i b (helperEntry s f b) (pre.map some)).trace }) := by
  constructor
  · intro s f l i b
    refine ⟨rfl, ?_, ?_, ?_, ?_, ?_, ?_, ?_, ?_⟩ <;> cases b <;> rfl
  · intro s f l i b pre post
    simp only [alloc_handler_helper, drainLines_malformed]
    rfl

/-! ## Claim C6 -/

/-- Claim C6: a single drain of one kind's bridge file bumps that kind's
per-site event counter at the signalled site by exactly one whenever the file
held at least one line, leaves every other count (and the other kind's
counts) untouched; draining an existing but empty file removes the file and
leaves every counter — per-site sums, per-site counts, totals and footprints
— unchanged. -/
theorem claim6_drain_count :
    (∀ (s : State) (f : String) (l i : ℕ) (b : Bool) (lines : List (Option ℚ)),
      lines ≠ [] →
      ((alloc_handler_helper s f l i b (some lines)).state.memory_malloc_count f l i
          = s.memory_malloc_count f l i + (if b then 1 else 0) ∧
       (alloc_handler_helper s f l i b (some lines)).state.memory_free_count f l i
          = s.memory_free_count f l i + (if b then 0 else 1) ∧
       ∀ f' l' i', ¬(f' = f ∧ l' = l ∧ i' = i) →
         (alloc_handler_helper s f l i b (some lines)).state.memory_malloc_count f' l' i'
            = s.memory_malloc_count f' l' i' ∧
         (alloc_handler_helper s f l i b (some lines)).state.memory_free_count f' l' i'
            = s.memory_free_count f' l' i')) ∧
    (∀ (s : State) (f : String) (l i : ℕ) (b : Bool),
      (alloc_handler_helper s f l i b (some [])).removed = true ∧
      (alloc_handler_helper s f l i b (some [])).state.memory_malloc_samples.val
        = s.memory_malloc_samples.val ∧
      (alloc_handler_helper s f l i b (some [])).state.memory_free_samples.val
        = s.memory_free_samples.val ∧
      (alloc_handler_helper s f l i b (some [])).state.memory_malloc_count
        = s.memory_malloc_count ∧
      (alloc_handler_helper s f l i b (some [])).state.memory_free_count
        = s.memory_free_count ∧
      (alloc_handler_helper s f l i b (some [])).state.total_memory_malloc_samples
        = s.total_memory_malloc_samples ∧
      (alloc_handler_helper s f l i b (some [])).state.total_memory_free_samples
        = s.total_memory_free_samples ∧
      (alloc_handler_helper s f l i b (some [])).state.current_footprint
        = s.current_footprint ∧
      (alloc_handler_helper s f l i b (some [])).state.max_footprint
        = s.max_footprint ∧
      (alloc_handler_helper s f l i b (some [])).state.bytei_map = s.bytei_map) := by
  constructor
  · intro s f l i b lines hne
    have hread := drainLines_readSomething f l i b (helperEntry s f b) lines hne
    have hd := drainLines_untouched f l i b lines (helperEntry s f b)
    have hentry :
        (helperEntry s f b).memory_malloc_count = s.memory_malloc_count ∧
        (helperEntry s f b).memory_free_count = s.memory_free_count := by
      cases b <;> exact ⟨rfl, rfl⟩
    have hshape : alloc_handler_helper s f l i b (some lines)
        = { state := bumpCount
              (drainLines f l i b (helperEntry s f b) lines).state b f l i,
            removed := !(drainLines f l i b (helperEntry s f b) lines).aborted,
            trace := (drainLines f l i b (helperEntry s f b) lines).trace } := by
      simp only [alloc_handler_helper, hread, if_true]
    rw [hshape]
    obtain ⟨hb1, hb2, hb3⟩ := bumpCount_spec
      (drainLines f l i b (helperEntry s f b) lines).state b f l i
    refine ⟨?_, ?_, ?_⟩
    · rw [hb1, hd.1, hentry.1]
    · rw [hb2, hd.2.1, hentry.2]
    · intro f' l' i' hne'
      obtain ⟨hc1, hc2⟩ := hb3 f' l' i' hne'
      rw [hc1, hc2, hd.1, hd.2.1, hentry.1, hentry.2]
      exact ⟨rfl, rfl⟩
  · intro s f l i b
    refine ⟨rfl, ?_, ?_, ?_, ?_, ?_, ?_, ?_, ?_, ?_⟩ <;> cases b <;> rfl

/-- Witness for `claim6_drain_count` at a concrete one-line malloc drain. -/
theorem claim6_witness :
    (alloc_handler_helper (initState "/a" 0) "f.py" 1 0 true
        (some [some 1048576])).state.memory_malloc_count "f.py" 1 0
      = (initState "/a" 0).memory_malloc_count "f.py" 1 0 + (if true then 1 else 0) :=
  (claim6_drain_count.1 (initState "/a" 0) "f.py" 1 0 true [some 1048576]
    (by simp)).1

/-! ## Claim C2 -/

/-- Effect of one parsed line on the footprint scalars: the invariant is
preserved and the new `max_footprint` is the old one joined with the new
`current_footprint`. -/
theorem drainStep_footprint (fname : String) (l i : ℕ) (b : Bool) (s : State)
    (q : ℚ) (hq : 0 ≤ q) (h : footInv s) :
    footInv (drainStep fname l i b s q) ∧
    (drainStep fname l i b s q).max_footprint
      = max s.max_footprint (drainStep fname l i b s q).current_footprint := by
  have hc : 0 ≤ q / (1024 * 1024) := div_nonneg hq (by norm_num)
  cases b with
  | true =>
    simp only [drainStep, eq_self_iff_true, if_true]
    split_ifs with hmax
    · refine ⟨⟨?_, le_refl _⟩, (max_eq_right (le_of_lt hmax)).symm⟩
      show s.current_footprint + q / (1024 * 1024)
        = s.total_memory_malloc_samples + q / (1024 * 1024)
          - s.total_memory_free_samples
      rw [h.1]; ring
    · refine ⟨⟨?_, not_lt.mp hmax⟩, (max_eq_left (not_lt.mp hmax)).symm⟩
      show s.current_footprint + q / (1024 * 1024)
        = s.total_memory_malloc_samples + q / (1024 * 1024)
          - s.total_memory_free_samples
      rw [h.1]; ring
  | false =>
    have hle : s.current_footprint - q / (1024 * 1024) ≤ s.max_footprint := by
      calc s.current_footprint - q / (1024 * 1024) ≤ s.current_footprint := by
            linarith
        _ ≤ s.max_footprint := h.2
    simp only [drainStep, Bool.false_eq_true, if_false]
    refine ⟨⟨?_, hle⟩, (max_eq_left hle).symm⟩
    show s.current_footprint - q / (1024 * 1024)
      = s.total_memory_malloc_samples
        - (s.total_memory_free_samples + q / (1024 * 1024))
    rw [h.1]; ring

/-- Effect of the drain loop on the footprint scalars: the invariant is
preserved and the new `max_footprint` is the running maximum of the ghost
footprint trace, continued from the old maximum. -/
theorem drainLines_footprint (fname : String) (l i : ℕ) (b : Bool) :
    ∀ (lines : List (Option ℚ)) (s : State),
      (∀ q : ℚ, some q ∈ lines → 0 ≤ q) → footInv s →
      footInv (drainLines fname l i b s lines).state ∧
      (drainLines fname l i b s lines).state.max_footprint
        = (drainLines fname l i b s lines).trace.foldl max s.max_footprint := by
  intro lines
  induction lines with
  | nil => exact fun s _ h => ⟨h, rfl⟩
  | cons x rest ih =>
    intro s hnn h
    cases x with
    | none => exact ⟨h, rfl⟩
    | some q =>
      have hq : 0 ≤ q := hnn q (by simp)
      obtain ⟨h1, hmax⟩ := drainStep_footprint fname l i b s q hq h
      obtain ⟨hi1, hi2⟩ := ih (drainStep fname l i b s q)
        (fun q' hq' => hnn q' (by simp [hq'])) h1
      simp only [drainLines]
      refine ⟨hi1, ?_⟩
      rw [hi2, hmax, List.foldl_cons]

/-- `helperEntry` and `bumpCount` leave the footprint scalars untouched. -/
theorem helperEntry_scalars (s : State) (f : String) (b : Bool) :
    (helperEntry s f b).current_footprint = s.current_footprint ∧
    (helperEntry s f b).total_memory_malloc_samples = s.total_memory_malloc_samples ∧
    (helperEntry s f b).total_memory_free_samples = s.total_memory_free_samples ∧
    (helperEntry s f b).max_footprint = s.max_footprint := by
  cases b <;> exact ⟨rfl, rfl, rfl, rfl⟩

/-- Effect of one bridge-file drain on the footprint scalars. -/
theorem alloc_helper_footprint (s : State) (f : String) (l i : ℕ) (b : Bool)
    (file : Option (List (Option ℚ))) (hnn : filesNN file) (h : footInv s) :
    footInv (alloc_handler_helper s f l i b file).state ∧
    (alloc_handler_helper s f l i b file).state.max_footprint
      = (alloc_handler_helper s f l i b file).trace.foldl max s.max_footprint := by
  have hentry : footInv (helperEntry s f b) ∧
      (helperEntry s f b).max_footprint = s.max_footprint ∧
      (helperEntry s f b).current_footprint = s.current_footprint := by
    obtain ⟨e1, e2, e3, e4⟩ := helperEntry_scalars s f b
    exact ⟨⟨by rw [e1, e2, e3]; exact h.1, by rw [e1, e4]; exact h.2⟩, e4, e1⟩
  cases file with
  | none => exact ⟨hentry.1, hentry.2.1⟩
  | some lines =>
    have hd := drainLines_footprint f l i b lines (helperEntry s f b) hnn hentry.1
    have hbump : ∀ t : State, footInv (bumpCount t b f l i) = footInv t ∧
        (bumpCount t b f l i).max_footprint = t.max_footprint := by
      intro t
      cases b <;> exact ⟨rfl, rfl⟩
    by_cases hr : (drainLines f l i b (helperEntry s f b) lines).readSomething = true
    · have hshape : alloc_handler_helper s f l i b (some lines)
          = { state := bumpCount
                (drainLines f l i b (helperEntry s f b) lines).state b f l i,
              removed := !(drainLines f l i b (helperEntry s f b) lines).aborted,
              trace := (drainLines f l i b (helperEntry s f b) lines).trace } := by
        simp only [alloc_handler_helper, hr, if_true]
      rw [hshape]
      refine ⟨?_, ?_⟩
      · show footInv (bumpCount (drainLines f l i b (helperEntry s f b) lines).state b f l i)
        rw [(hbump (drainLines f l i b (helperEntry s f b) lines).state).1]
        exact hd.1
      · show (bumpCount (drainLines f l i b (helperEntry s f b) lines).state b f l i).max_footprint
          = (drainLines f l i b (helperEntry s f b) lines).trace.foldl max s.max_footprint
        rw [(hbump (drainLines f l i b (helperEntry s f b) lines).state).2, hd.2,
          hentry.2.1]
    · have hshape : alloc_handler_helper s f l i b (some lines)
          = { state := (drainLines f l i b (helperEntry s f b) lines).state,
              removed := !(drainLines f l i b (helperEntry s f b) lines).aborted,
              trace := (drainLines f l i b (helperEntry s f b) lines).trace } := by
        simp only [alloc_handler_helper, hr, if_false, Bool.false_eq_true]
      rw [hshape]
      refine ⟨?_, ?_⟩
      · show footInv (drainLines f l i b (helperEntry s f b) lines).state
        exact hd.1
      · show (drainLines f l i b (helperEntry s f b) lines).state.max_footprint
          = (drainLines f l i b (helperEntry s f b) lines).trace.foldl max s.max_footprint
        rw [hd.2, hentry.2.1]

/-- Effect of one allocation/free signal delivery on the footprint scalars. -/
theorem allocation_handler_footprint (a : String → String) (fr : Frame)
    (mf ff : Option (List (Option ℚ))) (s s' : State) (tr : List ℚ)
    (hnm : filesNN mf) (hnf : filesNN ff) (h : footInv s)
    (hrun : allocation_handler a fr mf ff s = some (s', tr)) :
    footInv s' ∧ s'.max_footprint = tr.foldl max s.max_footprint := by
  simp only [allocation_handler] at hrun
  cases hst : should_trace a s.program_path fr.fname with
  | none => rw [hst] at hrun; exact Option.noConfusion hrun
  | some st =>
    rw [hst] at hrun
    simp only [Option.bind_eq_bind, Option.some_bind] at hrun
    cases st with
    | false =>
      simp only [Bool.not_false, if_true] at hrun
      obtain ⟨rfl, rfl⟩ : s = s' ∧ ([] : List ℚ) = tr := by
        constructor <;> [exact congrArg Prod.fst (Option.some.inj hrun);
          exact congrArg Prod.snd (Option.some.inj hrun)]
      exact ⟨h, rfl⟩
    | true =>
      simp only [Bool.not_true, if_false, Bool.false_eq_true] at hrun
      set s1 := if fr.f_lasti ∈ s.bytei_map fr.fname fr.f_lineno then s
        else { s with bytei_map := fun f' l' =>
          if f' = fr.fname ∧ l' = fr.f_lineno then
            s.bytei_map fr.fname fr.f_lineno ++ [fr.f_lasti]
          else s.bytei_map f' l' } with hs1
      have h1 : footInv s1 ∧ s1.max_footprint = s.max_footprint ∧
          s1.current_footprint = s.current_footprint := by
        rw [hs1]
        split_ifs <;> exact ⟨h, rfl, rfl⟩
      have hr1 := alloc_helper_footprint s1 fr.fname fr.f_lineno fr.f_lasti true mf
        hnm h1.1
      have hr2 := alloc_helper_footprint
        (alloc_handler_helper s1 fr.fname fr.f_lineno fr.f_lasti true mf).state
        fr.fname fr.f_lineno fr.f_lasti false ff hnf hr1.1
      obtain ⟨rfl, rfl⟩ :
          (alloc_handler_helper
            (alloc_handler_helper s1 fr.fname fr.f_lineno fr.f_lasti true mf).state
            fr.fname fr.f_lineno fr.f_lasti false ff).state = s' ∧
          (alloc_handler_helper s1 fr.fname fr.f_lineno fr.f_lasti true mf).trace ++
            (alloc_handler_helper
              (alloc_handler_helper s1 fr.fname fr.f_lineno fr.f_lasti true mf).state
              fr.fname fr.f_lineno fr.f_lasti false ff).trace = tr := by
        constructor <;> [exact congrArg Prod.fst (Option.some.inj hrun);
          exact congrArg Prod.snd (Option.some.inj hrun)]
      refine ⟨hr2.1, ?_⟩
      rw [List.foldl_append, hr2.2, hr1.2, h1.2.1]

/-- Claim C2, generalized to an arbitrary invariant-satisfying start state. -/
theorem runEvents_footprint (a : String → String) (src : String → List String)
    (rnd : ℕ → Bool × ℕ) :
    ∀ (evs : List Event) (s s' : State) (tr : List ℚ),
      (∀ e ∈ evs, Event.isAlloc e ∧ Event.nonneg e) →
      runEvents a src rnd s evs = some (s', tr) → footInv s →
      footInv s' ∧ s'.max_footprint = tr.foldl max s.max_footprint := by
  intro evs
  induction evs with
  | nil =>
    intro s s' tr _ hrun h
    obtain ⟨rfl, rfl⟩ : s = s' ∧ ([] : List ℚ) = tr := by
      constructor <;> [exact congrArg Prod.fst (Option.some.inj hrun);
        exact congrArg Prod.snd (Option.some.inj hrun)]
    exact ⟨h, rfl⟩
  | cons e es ih =>
    intro s s' tr hprop hrun h
    obtain ⟨he, hes⟩ : (Event.isAlloc e ∧ Event.nonneg e) ∧
        ∀ e' ∈ es, Event.isAlloc e' ∧ Event.nonneg e' := by
      exact ⟨hprop e (by simp), fun e' he' => hprop e' (by simp [he'])⟩
    cases e with
    | cpu now t1 t2 t3 t4 thisF others => exact absurd he.1 (by simp [Event.isAlloc])
    | alloc fr mf ff =>
      simp only [runEvents, stepEvent, Option.bind_eq_bind, Option.bind_eq_some] at hrun
      obtain ⟨⟨s1, t1⟩, hstep, hrest⟩ := hrun
      simp only [Option.bind_eq_some] at hrest
      obtain ⟨⟨s2, t2⟩, hrun2, hout⟩ := hrest
      obtain ⟨rfl, rfl⟩ : s2 = s' ∧ t1 ++ t2 = tr := by
        constructor <;> [exact congrArg Prod.fst (Option.some.inj hout);
          exact congrArg Prod.snd (Option.some.inj hout)]
      obtain ⟨hnm, hnf⟩ := he.2
      have h1 := allocation_handler_footprint a fr mf ff s s1 t1 hnm hnf h hstep
      have h2 := ih s1 _ _ hes hrun2 h1.1
      refine ⟨h2.1, ?_⟩
      rw [List.foldl_append, h2.2, h1.2]

/-- Claim C2: after any sequence of malloc/free handler deliveries (with the
allocator's non-negative byte counts), `current_footprint` equals
`total_memory_malloc_samples − total_memory_free_samples`, and
`max_footprint` equals the running maximum over time of `current_footprint`
(the fold of the ghost footprint trace from the initial 0); in particular
`max_footprint ≥ current_footprint`. -/
theorem claim2_footprint (a : String → String) (src : String → List String)
    (rnd : ℕ → Bool × ℕ) (pp : String) (t0 : ℚ) (evs : List Event)
    (s : State) (tr : List ℚ)
    (hprop : ∀ e ∈ evs, Event.isAlloc e ∧ Event.nonneg e)
    (hrun : runEvents a src rnd (initState pp t0) evs = some (s, tr)) :
    s.current_footprint = s.total_memory_malloc_samples
      - s.total_memory_free_samples ∧
    s.max_footprint = tr.foldl max 0 ∧
    s.current_footprint ≤ s.max_footprint := by
  have h0 : footInv (initState pp t0) := ⟨by norm_num [initState], le_refl 0⟩
  have h := runEvents_footprint a src rnd evs (initState pp t0) s tr hprop hrun h0
  exact ⟨h.1.1, h.2, h.1.2⟩

/-- Witness for `claim2_footprint` at the (empty) concrete delivery sequence
from the freshly started profiler. -/
theorem claim2_witness :
    (initState "/a" 0).current_footprint
        = (initState "/a" 0).total_memory_malloc_samples
          - (initState "/a" 0).total_memory_free_samples ∧
    (initState "/a" 0).max_footprint = ([] : List ℚ).foldl max 0 ∧
    (initState "/a" 0).current_footprint ≤ (initState "/a" 0).max_footprint :=
  claim2_footprint id (fun _ => []) (fun _ => (false, 0)) "/a" 0 []
    (initState "/a" 0) [] (by simp) rfl

/-! ## Claim C1 -/

/-- Reading `(d.add f0 l0 q).val` pointwise. -/
theorem Dict2.add_val (d : Dict2) (f0 : String) (l0 : ℕ) (q : ℚ) (f : String) (l : ℕ) :
    (d.add f0 l0 q).val f l = d.val f l + (if f = f0 ∧ l = l0 then q else 0) := by
  show updF2 d.val f0 l0 (d.val f0 l0 + q) f l = _
  unfold updF2
  split_ifs with h
  · obtain ⟨rfl, rfl⟩ := h
    rfl
  · ring

/-- The footprint roll never touches the CPU tables, the CPU total or the
timing fields. -/
theorem rollStep_cpu (fname : String) (lineno : ℕ) (rnd : ℕ → Bool × ℕ)
    (s : State) (ctr : ℕ) (idx : ℕ) :
    (rollStep fname lineno rnd (s, ctr) idx).1.cpu_samples_python
        = s.cpu_samples_python ∧
    (rollStep fname lineno rnd (s, ctr) idx).1.cpu_samples_c = s.cpu_samples_c ∧
    (rollStep fname lineno rnd (s, ctr) idx).1.total_cpu_samples
        = s.total_cpu_samples ∧
    (rollStep fname lineno rnd (s, ctr) idx).1.last_signal_interval
        = s.last_signal_interval :=
  ⟨rfl, rfl, rfl, rfl⟩

/-- Folding the footprint roll over the byte indices preserves the CPU
tables, the CPU total and the timing fields. -/
theorem rollFold_cpu (fname : String) (lineno : ℕ) (rnd : ℕ → Bool × ℕ) :
    ∀ (idxs : List ℕ) (s : State) (ctr : ℕ),
      ((idxs.foldl (rollStep fname lineno rnd) (s, ctr)).1.cpu_samples_python
          = s.cpu_samples_python ∧
        (idxs.foldl (rollStep fname lineno rnd) (s, ctr)).1.cpu_samples_c
          = s.cpu_samples_c ∧
        (idxs.foldl (rollStep fname lineno rnd) (s, ctr)).1.total_cpu_samples
          = s.total_cpu_samples ∧
        (idxs.foldl (rollStep fname lineno rnd) (s, ctr)).1.last_signal_interval
          = s.last_signal_interval) := by
  intro idxs
  induction idxs with
  | nil => exact fun s ctr => ⟨rfl, rfl, rfl, rfl⟩
  | cons i rest ih =>
    intro s ctr
    simp only [List.foldl_cons]
    obtain ⟨u1, u2, u3, u4⟩ := rollStep_cpu fname lineno rnd s ctr i
    have hsnd : rollStep fname lineno rnd (s, ctr) i
        = ((rollStep fname lineno rnd (s, ctr) i).1, ctr + 1) := rfl
    rw [hsnd]
    obtain ⟨v1, v2, v3, v4⟩ := ih (rollStep fname lineno rnd (s, ctr) i).1 (ctr + 1)
    exact ⟨v1.trans u1, v2.trans u2, v3.trans u3, v4.trans u4⟩

/-- Pointwise effect of one attribution-loop iteration on the CPU tables. -/
theorem attrFrame_val (thisF : Frame) (pt ct tt : ℚ) (n : ℕ) (rnd : ℕ → Bool × ℕ)
    (s : State) (ctr : ℕ) (fr : Frame) :
    (∀ f l, (attrFrame thisF pt ct tt n rnd (s, ctr) fr).1.cpu_samples_python.val f l
        = s.cpu_samples_python.val f l + pyContrib thisF pt tt n f l fr) ∧
    (∀ f l, (attrFrame thisF pt ct tt n rnd (s, ctr) fr).1.cpu_samples_c.val f l
        = s.cpu_samples_c.val f l + cContrib thisF ct tt n f l fr) ∧
    (attrFrame thisF pt ct tt n rnd (s, ctr) fr).1.total_cpu_samples
        = s.total_cpu_samples ∧
    (attrFrame thisF pt ct tt n rnd (s, ctr) fr).1.last_signal_interval
        = s.last_signal_interval := by
  unfold attrFrame pyContrib cContrib
  by_cases hmain : fr = thisF
  · simp only [if_pos hmain]
    obtain ⟨r1, r2, r3, r4⟩ := rollFold_cpu fr.fname fr.f_lineno rnd
      (s.bytei_map fr.fname fr.f_lineno) _ ctr
    refine ⟨?_, ?_, r3, r4⟩
    · intro f l
      rw [r1]
      show (s.cpu_samples_python.add fr.fname fr.f_lineno (pt / (n : ℚ))).val f l = _
      exact Dict2.add_val _ _ _ _ f l
    · intro f l
      rw [r2]
      show (s.cpu_samples_c.add fr.fname fr.f_lineno (ct / (n : ℚ))).val f l = _
      exact Dict2.add_val _ _ _ _ f l
  · simp only [if_neg hmain]
    by_cases hcall : is_call_function fr.code fr.f_lasti
    · simp only [if_pos hcall]
      obtain ⟨r1, r2, r3, r4⟩ := rollFold_cpu fr.fname fr.f_lineno rnd
        (s.bytei_map fr.fname fr.f_lineno) _ ctr
      refine ⟨?_, ?_, r3, r4⟩
      · intro f l
        rw [r1]
        show s.cpu_samples_python.val f l = _
        ring
      · intro f l
        rw [r2]
        show (s.cpu_samples_c.add fr.fname fr.f_lineno (tt / (n : ℚ))).val f l = _
        exact Dict2.add_val _ _ _ _ f l
    · simp only [if_neg hcall]
      obtain ⟨r1, r2, r3, r4⟩ := rollFold_cpu fr.fname fr.f_lineno rnd
        (s.bytei_map fr.fname fr.f_lineno) _ ctr
      refine ⟨?_, ?_, r3, r4⟩
      · intro f l
        rw [r1]
        show (s.cpu_samples_python.add fr.fname fr.f_lineno (tt / (n : ℚ))).val f l = _
        exact Dict2.add_val _ _ _ _ f l
      · intro f l
        rw [r2]
        show s.cpu_samples_c.val f l = _
        ring

/-- Pointwise effect of the whole attribution loop on the CPU tables: the
per-frame deltas add up. -/
theorem attrFold_val (thisF : Frame) (pt ct tt : ℚ) (n : ℕ) (rnd : ℕ → Bool × ℕ) :
    ∀ (frames : List Frame) (s : State) (ctr : ℕ),
      (∀ f l, (frames.foldl (attrFrame thisF pt ct tt n rnd) (s, ctr)).1.cpu_samples_python.val f l
          = s.cpu_samples_python.val f l
            + (frames.map (pyContrib thisF pt tt n f l)).sum) ∧
      (∀ f l, (frames.foldl (attrFrame thisF pt ct tt n rnd) (s, ctr)).1.cpu_samples_c.val f l
          = s.cpu_samples_c.val f l
            + (frames.map (cContrib thisF ct tt n f l)).sum) ∧
      (frames.foldl (attrFrame thisF pt ct tt n rnd) (s, ctr)).1.total_cpu_samples
          = s.total_cpu_samples ∧
      (frames.foldl (attrFrame thisF pt ct tt n rnd) (s, ctr)).1.last_signal_interval
          = s.last_signal_interval := by
  intro frames
  induction frames with
  | nil =>
    intro s ctr
    refine ⟨fun f l => by simp, fun f l => by simp, rfl, rfl⟩
  | cons fr rest ih =>
    intro s ctr
    simp only [List.foldl_cons, List.map_cons, List.sum_cons]
    obtain ⟨a1, a2, a3, a4⟩ := attrFrame_val thisF pt ct tt n rnd s ctr fr
    have hpair : attrFrame thisF pt ct tt n rnd (s, ctr) fr
        = ((attrFrame thisF pt ct tt n rnd (s, ctr) fr).1,
           (attrFrame thisF pt ct tt n rnd (s, ctr) fr).2) := rfl
    rw [hpair]
    obtain ⟨b1, b2, b3, b4⟩ := ih (attrFrame thisF pt ct tt n rnd (s, ctr) fr).1
      (attrFrame thisF pt ct tt n rnd (s, ctr) fr).2
    refine ⟨?_, ?_, b3.trans a3, b4.trans a4⟩
    · intro f l
      rw [b1 f l, a1 f l]
      ring
    · intro f l
      rw [b2 f l, a2 f l]
      ring

/-- The global footprint sampling loop preserves the CPU tables and totals. -/
theorem footFold_cpu (now : ℚ) (rnd : ℕ → Bool × ℕ) :
    ∀ (ks : List ℕ) (s : State) (ctr : ℕ),
      ((ks.foldl (footSampleStep now rnd) (s, ctr)).1.cpu_samples_python
          = s.cpu_samples_python ∧
        (ks.foldl (footSampleStep now rnd) (s, ctr)).1.cpu_samples_c
          = s.cpu_samples_c ∧
        (ks.foldl (footSampleStep now rnd) (s, ctr)).1.total_cpu_samples
          = s.total_cpu_samples) := by
  intro ks
  induction ks with
  | nil => exact fun s ctr => ⟨rfl, rfl, rfl⟩
  | cons k rest ih =>
    intro s ctr
    simp only [List.foldl_cons]
    exact ih _ (ctr + 1)

/-- Clamping at zero is taking a maximum. -/
theorem clamp_eq_max (x : ℚ) : (if x < 0 then (0 : ℚ) else x) = max 0 x := by
  split_ifs with hx
  · exact (max_eq_left (le_of_lt hx)).symm
  · exact (max_eq_right (not_lt.mp hx)).symm

/-- Claim C1: on a CPU tick (one on which no periodic report is due), with
`elapsed = now − last_signal_time`, `python_time = last_signal_interval`,
`c_time = max(0, elapsed − python_time)` and `total_time = python_time +
c_time`, the handler succeeds and, for the list `nf` of retained frames
(which contains the signalled main frame, so `N = nf.length ≥ 1`): every
`(file, line)` of the interpreter counter grows by the sum over the retained
frames of `python_time / N` (main frame, own line) plus `total_time / N`
(other frames whose current instruction is not a call-function opcode, own
line); the native counter grows by `c_time / N` for the main frame plus
`total_time / N` for the other frames sitting in a call-function opcode; and
`total_cpu_samples` grows by exactly `total_time`. -/
theorem claim1_cpu_attribution (a : String → String) (src : String → List String)
    (now tStop tStart1 tStart2 tEnd : ℚ) (rnd : ℕ → Bool × ℕ)
    (thisF : Frame) (others : List (Option Frame)) (s : State) (nf : List Frame)
    (hout : ¬ s.next_output_time ≤ (now : WithTop ℚ))
    (hint : s.last_signal_interval ≠ 0)
    (hfil : filterFrames a s.program_path (thisF :: others.filterMap id) = some nf)
    (hmem : thisF ∈ nf) :
    ∃ s', cpu_signal_handler a src now tStop tStart1 tStart2 tEnd rnd thisF others s
        = some s' ∧
      s'.total_cpu_samples = s.total_cpu_samples
        + (s.last_signal_interval
            + max 0 (now - s.last_signal_time - s.last_signal_interval)) ∧
      (∀ f l, s'.cpu_samples_python.val f l = s.cpu_samples_python.val f l
          + (nf.map (pyContrib thisF s.last_signal_interval
              (s.last_signal_interval
                + max 0 (now - s.last_signal_time - s.last_signal_interval))
              nf.length f l)).sum) ∧
      (∀ f l, s'.cpu_samples_c.val f l = s.cpu_samples_c.val f l
          + (nf.map (cContrib thisF
              (max 0 (now - s.last_signal_time - s.last_signal_interval))
              (s.last_signal_interval
                + max 0 (now - s.last_signal_time - s.last_signal_interval))
              nf.length f l)).sum) := by
  have hn : nf ≠ [] := by rintro rfl; exact absurd hmem (by simp)
  simp only [cpu_signal_handler, if_neg hout, hfil, Option.pure_def,
    Option.bind_eq_bind, Option.some_bind, clamp_eq_max]
  set pt := s.last_signal_interval with hpt
  set ct := max 0 (now - s.last_signal_time - pt) with hct
  obtain ⟨a1, a2, a3, a4⟩ := attrFold_val thisF pt ct (pt + ct) nf.length rnd nf s 0
  have hint2 : (nf.foldl (attrFrame thisF pt ct (pt + ct) nf.length rnd) (s, 0)).1.last_signal_interval
      = s.last_signal_interval := a4
  rw [if_neg (by rw [hint2]; exact hint)]
  refine ⟨_, rfl, ?_, ?_, ?_⟩
  · obtain ⟨f1, f2, f3⟩ := footFold_cpu now rnd _ _ _
    rw [f3]
    show (nf.foldl (attrFrame thisF pt ct (pt + ct) nf.length rnd) (s, 0)).1.total_cpu_samples
        + (pt + ct) = s.total_cpu_samples + (pt + ct)
    rw [a3]
  · intro f l
    obtain ⟨f1, f2, f3⟩ := footFold_cpu now rnd _ _ _
    rw [f1]
    exact a1 f l
  · intro f l
    obtain ⟨f1, f2, f3⟩ := footFold_cpu now rnd _ _ _
    rw [f2]
    exact a2 f l

/-- Witness for `claim1_cpu_attribution`: one tick with a single traced frame
from the freshly started profiler. -/
theorem claim1_witness :
    ∃ s', cpu_signal_handler id (fun _ => []) 1 0 0 0 0 (fun _ => (false, 0))
        (Frame.mk 1 "/a/x.py" 3 0 [] none) [] (initState "/a" 0) = some s' ∧
      s'.total_cpu_samples = (initState "/a" 0).total_cpu_samples
        + ((initState "/a" 0).last_signal_interval
            + max 0 (1 - (initState "/a" 0).last_signal_time
              - (initState "/a" 0).last_signal_interval)) ∧
      (∀ f l, s'.cpu_samples_python.val f l
          = (initState "/a" 0).cpu_samples_python.val f l
            + (([Frame.mk 1 "/a/x.py" 3 0 [] none]).map
                (pyContrib (Frame.mk 1 "/a/x.py" 3 0 [] none)
                  (initState "/a" 0).last_signal_interval
                  ((initState "/a" 0).last_signal_interval
                    + max 0 (1 - (initState "/a" 0).last_signal_time
                      - (initState "/a" 0).last_signal_interval))
                  ([Frame.mk 1 "/a/x.py" 3 0 [] none]).length f l)).sum) ∧
      (∀ f l, s'.cpu_samples_c.val f l
          = (initState "/a" 0).cpu_samples_c.val f l
            + (([Frame.mk 1 "/a/x.py" 3 0 [] none]).map
                (cContrib (Frame.mk 1 "/a/x.py" 3 0 [] none)
                  (max 0 (1 - (initState "/a" 0).last_signal_time
                    - (initState "/a" 0).last_signal_interval))
                  ((initState "/a" 0).last_signal_interval
                    + max 0 (1 - (initState "/a" 0).last_signal_time
                      - (initState "/a" 0).last_signal_interval))
                  ([Frame.mk 1 "/a/x.py" 3 0 [] none]).length f l)).sum) :=
  claim1_cpu_attribution id (fun _ => []) 1 0 0 0 0 (fun _ => (false, 0))
    (Frame.mk 1 "/a/x.py" 3 0 [] none) [] (initState "/a" 0)
    [Frame.mk 1 "/a/x.py" 3 0 [] none]
    (by simp [initState])
    (by norm_num [initState])
    (by rfl)
    (by simp)

/-! ## Claim C8 -/

/-- Claim C8 is false as stated only in the exact diagnostic text: with all
three totals zero, `output_profiles` emits nothing and returns false, but the
driver's diagnostic line is `"Scalene: Program did not run for long enough to
profile."`, not the claim's quoted `"Program did not run for long enough to
profile."`. -/
theorem claim8_counterexample :
    output_profiles (fun _ => []) (initState "/a" 0)
      = some (false, [], initState "/a" 0) ∧
    mainReportLines false
      = ["Scalene: Program did not run for long enough to profile."] ∧
    mainReportLines false ≠ ["Program did not run for long enough to profile."] := by
  refine ⟨?_, rfl, by decide⟩
  simp only [output_profiles]
  rw [if_pos ⟨rfl, rfl, rfl⟩]

/-- Claim C8, amended: if the three totals are all zero, `output_profiles`
emits nothing, leaves the state untouched and returns false, and the driver
then prints the single diagnostic line `"Scalene: Program did not run for
long enough to profile."` to standard output. -/
theorem claim8_amended_short_run (src : String → List String) (s : State)
    (h : s.total_cpu_samples = 0 ∧ s.total_memory_malloc_samples = 0 ∧
      s.total_memory_free_samples = 0) :
    output_profiles src s = some (false, [], s) ∧
    mainReportLines false
      = ["Scalene: Program did not run for long enough to profile."] :=
  ⟨by simp only [output_profiles]; rw [if_pos h], rfl⟩

/-- Witness for `claim8_amended_short_run` at the freshly started profiler. -/
theorem claim8_witness :
    output_profiles (fun _ => []) (initState "/a" 0)
      = some (false, [], initState "/a" 0) ∧
    mainReportLines false
      = ["Scalene: Program did not run for long enough to profile."] :=
  claim8_amended_short_run (fun _ => []) (initState "/a" 0) ⟨rfl, rfl, rfl⟩

/-! ## Claim C7 -/

theorem insKey_mem {α : Type} [DecidableEq α] {ks : List α} {k j : α}
    (h : j ∈ insKey ks k) : j ∈ ks ∨ j = k := by
  unfold insKey at h
  split_ifs at h
  · exact Or.inl h
  · rcases List.mem_append.mp h with h | h
    · exact Or.inl h
    · exact Or.inr (by simpa using h)

/-- Membership in the inner key sets after a `Dict3.touch`. -/
theorem Dict3.touch_innerKeys_mem (d : Dict3) (f0 : String) (l0 i0 : ℕ)
    (f : String) (l i : ℕ) (h : i ∈ (d.touch f0 l0 i0).innerKeys f l) :
    i ∈ d.innerKeys f l ∨ (f = f0 ∧ l = l0 ∧ i = i0) := by
  simp only [Dict3.touch] at h
  split_ifs at h with hp
  · rcases insKey_mem h with h | h
    · exact Or.inl (by rw [hp.1, hp.2]; exact h)
    · exact Or.inr ⟨hp.1, hp.2, h⟩
  · exact Or.inl h

/-- Membership in the inner key sets after a `Dict3.add`. -/
theorem Dict3.add_innerKeys_mem (d : Dict3) (f0 : String) (l0 i0 : ℕ) (q : ℚ)
    (f : String) (l i : ℕ) (h : i ∈ (d.add f0 l0 i0 q).innerKeys f l) :
    i ∈ d.innerKeys f l ∨ (f = f0 ∧ l = l0 ∧ i = i0) := by
  simp only [Dict3.add] at h
  split_ifs at h with hp
  · rcases insKey_mem h with h | h
    · exact Or.inl (by rw [hp.1, hp.2]; exact h)
    · exact Or.inr ⟨hp.1, hp.2, h⟩
  · exact Or.inl h

/-- One drain step keeps the key invariant, provided the signalled byte index
is already recorded in `bytei_map`. -/
theorem drainStep_keys (fname : String) (l0 i0 : ℕ) (b : Bool) (s : State) (q : ℚ)
    (hin : i0 ∈ s.bytei_map fname l0) (hk : KeysInv s) :
    (drainStep fname l0 i0 b s q).bytei_map = s.bytei_map ∧
    KeysInv (drainStep fname l0 i0 b s q) := by
  cases b with
  | true =>
    have hm : (drainStep fname l0 i0 true s q).memory_malloc_samples
        = s.memory_malloc_samples.add fname l0 i0 (q / (1024 * 1024)) := by
      simp only [drainStep, eq_self_iff_true, if_true]
      split_ifs <;> rfl
    have hf : (drainStep fname l0 i0 true s q).memory_free_samples
        = s.memory_free_samples := by
      simp only [drainStep, eq_self_iff_true, if_true]
      split_ifs <;> rfl
    have hb : (drainStep fname l0 i0 true s q).bytei_map = s.bytei_map := by
      simp only [drainStep, eq_self_iff_true, if_true]
      split_ifs <;> rfl
    refine ⟨hb, ?_⟩
    intro f l i hmem
    rw [hb]
    rw [hm, hf] at hmem
    rcases hmem with hmem | hmem
    · rcases Dict3.add_innerKeys_mem _ _ _ _ _ _ _ _ hmem with hmem | ⟨rfl, rfl, rfl⟩
      · exact hk f l i (Or.inl hmem)
      · exact hin
    · exact hk f l i (Or.inr hmem)
  | false =>
    have hm : (drainStep fname l0 i0 false s q).memory_malloc_samples
        = s.memory_malloc_samples := rfl
    have hf : (drainStep fname l0 i0 false s q).memory_free_samples
        = s.memory_free_samples.add fname l0 i0 (q / (1024 * 1024)) := rfl
    refine ⟨rfl, ?_⟩
    intro f l i hmem
    rw [hm, hf] at hmem
    show i ∈ s.bytei_map f l
    rcases hmem with hmem | hmem
    · exact hk f l i (Or.inl hmem)
    · rcases Dict3.add_innerKeys_mem _ _ _ _ _ _ _ _ hmem with hmem | ⟨rfl, rfl, rfl⟩
      · exact hk f l i (Or.inr hmem)
      · exact hin

/-- The drain loop keeps the key invariant. -/
theorem drainLines_keys (fname : String) (l0 i0 : ℕ) (b : Bool) :
    ∀ (lines : List (Option ℚ)) (s : State),
      i0 ∈ s.bytei_map fname l0 → KeysInv s →
      (drainLines fname l0 i0 b s lines).state.bytei_map = s.bytei_map ∧
      KeysInv (drainLines fname l0 i0 b s lines).state := by
  intro lines
  induction lines with
  | nil => exact fun s _ hk => ⟨rfl, hk⟩
  | cons x rest ih =>
    intro s hin hk
    cases x with
    | none => exact ⟨rfl, hk⟩
    | some q =>
      simp only [drainLines]
      obtain ⟨hb1, hk1⟩ := drainStep_keys fname l0 i0 b s q hin hk
      obtain ⟨hb2, hk2⟩ := ih (drainStep fname l0 i0 b s q) (by rw [hb1]; exact hin) hk1
      exact ⟨hb2.trans hb1, hk2⟩

/-- A full bridge-file drain keeps the key invariant. -/
theorem alloc_helper_keys (s : State) (f0 : String) (l0 i0 : ℕ) (b : Bool)
    (file : Option (List (Option ℚ)))
    (hin : i0 ∈ s.bytei_map f0 l0) (hk : KeysInv s) :
    (alloc_handler_helper s f0 l0 i0 b file).state.bytei_map = s.bytei_map ∧
    KeysInv (alloc_handler_helper s f0 l0 i0 b file).state := by
  have hke : KeysInv (helperEntry s f0 b) ∧
      (helperEntry s f0 b).bytei_map = s.bytei_map ∧
      (helperEntry s f0 b).memory_malloc_samples.innerKeys
        = s.memory_malloc_samples.innerKeys ∧
      (helperEntry s f0 b).memory_free_samples.innerKeys
        = s.memory_free_samples.innerKeys := by
    cases b with
    | true => exact ⟨fun f l i h => hk f l i h, rfl, rfl, rfl⟩
    | false => exact ⟨fun f l i h => hk f l i h, rfl, rfl, rfl⟩
  cases file with
  | none => exact ⟨hke.2.1, hke.1⟩
  | some lines =>
    obtain ⟨hd1, hd2⟩ := drainLines_keys f0 l0 i0 b lines (helperEntry s f0 b)
      (by rw [hke.2.1]; exact hin) hke.1
    by_cases hr : (drainLines f0 l0 i0 b (helperEntry s f0 b) lines).readSomething = true
    · have hshape : (alloc_handler_helper s f0 l0 i0 b (some lines)).state
          = bumpCount (drainLines f0 l0 i0 b (helperEntry s f0 b) lines).state b f0 l0 i0 := by
        simp only [alloc_handler_helper, hr, if_true]
      rw [hshape]
      have hbump : ∀ t : State, (bumpCount t b f0 l0 i0).bytei_map = t.bytei_map ∧
          (KeysInv (bumpCount t b f0 l0 i0) ↔ KeysInv t) := by
        intro t
        cases b <;> exact ⟨rfl, Iff.rfl⟩
      refine ⟨?_, ?_⟩
      · rw [(hbump _).1, hd1, hke.2.1]
      · exact ((hbump _).2).mpr hd2
    · have hshape : (alloc_handler_helper s f0 l0 i0 b (some lines)).state
          = (drainLines f0 l0 i0 b (helperEntry s f0 b) lines).state := by
        simp only [alloc_handler_helper, hr, if_false, Bool.false_eq_true]
      rw [hshape]
      exact ⟨hd1.trans hke.2.1, hd2⟩

/-- One allocation/free signal delivery keeps the key invariant (recording
the byte index in `bytei_map` happens before the drains). -/
theorem allocation_handler_keys (a : String → String) (fr : Frame)
    (mf ff : Option (List (Option ℚ))) (s s' : State) (tr : List ℚ)
    (h : allocation_handler a fr mf ff s = some (s', tr)) (hk : KeysInv s) :
    KeysInv s' := by
  simp only [allocation_handler] at h
  cases hst : should_trace a s.program_path fr.fname with
  | none => rw [hst] at h; exact Option.noConfusion h
  | some st =>
    rw [hst] at h
    simp only [Option.bind_eq_bind, Option.some_bind] at h
    cases st with
    | false =>
      simp only [Bool.not_false, if_true] at h
      obtain rfl : s = s' := congrArg Prod.fst (Option.some.inj h)
      exact hk
    | true =>
      simp only [Bool.not_true, if_false, Bool.false_eq_true] at h
      set s1 := if fr.f_lasti ∈ s.bytei_map fr.fname fr.f_lineno then s
        else { s with bytei_map := fun f' l' =>
          if f' = fr.fname ∧ l' = fr.f_lineno then
            s.bytei_map fr.fname fr.f_lineno ++ [fr.f_lasti]
          else s.bytei_map f' l' } with hs1
      have hsup : ∀ (f : String) (l j : ℕ), j ∈ s.bytei_map f l → j ∈ s1.bytei_map f l := by
        intro f l j hj
        rw [hs1]
        split_ifs with hcase
        · exact hj
        · show j ∈ (if f = fr.fname ∧ l = fr.f_lineno then
            s.bytei_map fr.fname fr.f_lineno ++ [fr.f_lasti] else s.bytei_map f l)
          split_ifs with hp
          · exact List.mem_append.mpr (Or.inl (by rw [← hp.1, ← hp.2]; exact hj))
          · exact hj
      have hin1 : fr.f_lasti ∈ s1.bytei_map fr.fname fr.f_lineno := by
        rw [hs1]
        split_ifs with hcase
        · exact hcase
        · show fr.f_lasti ∈ (if fr.fname = fr.fname ∧ fr.f_lineno = fr.f_lineno then
            s.bytei_map fr.fname fr.f_lineno ++ [fr.f_lasti]
            else s.bytei_map fr.fname fr.f_lineno)
          rw [if_pos ⟨rfl, rfl⟩]
          exact List.mem_append.mpr (Or.inr (by simp))
      have hk1 : KeysInv s1 := by
        intro f l i hmem
        have hmem' : i ∈ s.memory_malloc_samples.innerKeys f l ∨
            i ∈ s.memory_free_samples.innerKeys f l := by
          rw [hs1] at hmem
          split_ifs at hmem <;> exact hmem
        exact hsup f l i (hk f l i hmem')
      obtain ⟨hb1, hk2⟩ := alloc_helper_keys s1 fr.fname fr.f_lineno fr.f_lasti true mf
        hin1 hk1
      obtain ⟨hb2, hk3⟩ := alloc_helper_keys
        (alloc_handler_helper s1 fr.fname fr.f_lineno fr.f_lasti true mf).state
        fr.fname fr.f_lineno fr.f_lasti false ff (by rw [hb1]; exact hin1) hk2
      obtain rfl : (alloc_handler_helper
          (alloc_handler_helper s1 fr.fname fr.f_lineno fr.f_lasti true mf).state
          fr.fname fr.f_lineno fr.f_lasti false ff).state = s' :=
        congrArg Prod.fst (Option.some.inj h)
      exact hk3

/-- One byte-index read of the Reporter keeps the key invariant. -/
theorem byteiStep_keys (fname : String) (n : ℕ) (s : State) (ag : LineAgg) (i : ℕ)
    (hin : i ∈ s.bytei_map fname n) (hk : KeysInv s) :
    (byteiStep fname n (s, ag) i).1.bytei_map = s.bytei_map ∧
    KeysInv (byteiStep fname n (s, ag) i).1 := by
  have h1 : (byteiStep fname n (s, ag) i).1.memory_malloc_samples
      = s.memory_malloc_samples.touch fname n i := rfl
  have h2 : (byteiStep fname n (s, ag) i).1.memory_free_samples
      = s.memory_free_samples.touch fname n i := rfl
  refine ⟨rfl, ?_⟩
  intro f l j hmem
  rw [h1, h2] at hmem
  show j ∈ s.bytei_map f l
  rcases hmem with hmem | hmem
  · rcases Dict3.touch_innerKeys_mem _ _ _ _ _ _ _ hmem with hmem | ⟨rfl, rfl, rfl⟩
    · exact hk f l j (Or.inl hmem)
    · exact hin
  · rcases Dict3.touch_innerKeys_mem _ _ _ _ _ _ _ hmem with hmem | ⟨rfl, rfl, rfl⟩
    · exact hk f l j (Or.inr hmem)
    · exact hin

/-- The Reporter's byte-index loop keeps the key invariant. -/
theorem byteiFold_keys (fname : String) (n : ℕ) :
    ∀ (idxs : List ℕ) (s : State) (ag : LineAgg),
      (∀ j ∈ idxs, j ∈ s.bytei_map fname n) → KeysInv s →
      (byteiLoop fname n s ag idxs).1.bytei_map = s.bytei_map ∧
      KeysInv (byteiLoop fname n s ag idxs).1 := by
  intro idxs
  induction idxs with
  | nil => exact fun s ag _ hk => ⟨rfl, hk⟩
  | cons i rest ih =>
    intro s ag hsub hk
    show (List.foldl (byteiStep fname n) (byteiStep fname n (s, ag) i) rest).1.bytei_map
        = s.bytei_map ∧ _
    obtain ⟨hb1, hk1⟩ := byteiStep_keys fname n s ag i (hsub i (by simp)) hk
    have hpair : byteiStep fname n (s, ag) i
        = ((byteiStep fname n (s, ag) i).1, (byteiStep fname n (s, ag) i).2) := rfl
    rw [hpair]
    obtain ⟨hb2, hk2⟩ := ih (byteiStep fname n (s, ag) i).1
      (byteiStep fname n (s, ag) i).2
      (fun j hj => by rw [hb1]; exact hsub j (by simp [hj])) hk1
    exact ⟨hb2.trans hb1, hk2⟩

/-- `setPerLine` does not move the key sets. -/
theorem setPerLine_keysInv (s : State) (f : String) (l : ℕ) (items : List (ℚ × ℚ)) :
    KeysInv (setPerLine s f l items) ↔ KeysInv s := Iff.rfl

/-- Emitting one report line keeps the key invariant. -/
theorem emitLine_keys (dsm : Bool) (s : State) (f : String) (n : ℕ) (raw : String)
    (s' : State) (o : OutLine) (h : emitLine dsm s f n raw = some (s', o))
    (hk : KeysInv s) : KeysInv s' ∧ s'.bytei_map = s.bytei_map := by
  simp only [emitLine] at h
  split at h
  · split at h
    · replace h := congrArg Prod.fst (Option.some.inj h)
      subst h
      refine ⟨?_, ?_⟩
      · refine (byteiFold_keys f n (s.bytei_map f n) _ _ ?_ ?_).2
        · exact fun j hj => hj
        · exact hk
      · refine (byteiFold_keys f n (s.bytei_map f n) _ _ ?_ ?_).1
        · exact fun j hj => hj
        · exact hk
    · split at h
      · exact Option.noConfusion h
      · replace h := congrArg Prod.fst (Option.some.inj h)
        subst h
        refine ⟨?_, ?_⟩
        · refine (byteiFold_keys f n (s.bytei_map f n) _ _ ?_ ?_).2
          · exact fun j hj => hj
          · exact hk
        · refine (byteiFold_keys f n (s.bytei_map f n) _ _ ?_ ?_).1
          · exact fun j hj => hj
          · exact hk
  · replace h := congrArg Prod.fst (Option.some.inj h)
    subst h
    refine ⟨?_, ?_⟩
    · refine (byteiFold_keys f n (s.bytei_map f n) _ _ ?_ ?_).2
      · exact fun j hj => hj
      · exact hk
    · refine (byteiFold_keys f n (s.bytei_map f n) _ _ ?_ ?_).1
      · exact fun j hj => hj
      · exact hk

/-- The source-line loop keeps the key invariant and the known-offset map. -/
theorem emitLines_keys (dsm : Bool) (fname : String) :
    ∀ (raws : List String) (s : State) (n : ℕ) (s' : State) (os : List OutLine),
      emitLines dsm fname s n raws = some (s', os) → KeysInv s →
      KeysInv s' ∧ s'.bytei_map = s.bytei_map := by
  intro raws
  induction raws with
  | nil =>
    intro s n s' os h hk
    obtain rfl : s = s' := congrArg Prod.fst (Option.some.inj h)
    exact ⟨hk, rfl⟩
  | cons raw rest ih =>
    intro s n s' os h hk
    simp only [emitLines, Option.pure_def, Option.bind_eq_bind, Option.bind_eq_some] at h
    obtain ⟨⟨s1, o1⟩, h1, ⟨⟨s2, os2⟩, h2, h3⟩⟩ := h
    obtain rfl : s2 = s' := congrArg Prod.fst (Option.some.inj h3)
    obtain ⟨hk1, hb1⟩ := emitLine_keys dsm s fname n raw s1 o1 h1 hk
    obtain ⟨hk2, hb2⟩ := ih s1 (n + 1) _ os2 h2 hk1
    exact ⟨hk2, hb2.trans hb1⟩

/-- Reporting one file keeps the key invariant and the known-offset map. -/
theorem emitFile_keys (dsm : Bool) (src : String → List String) (s : State)
    (f : String) (s' : State) (os : List OutLine)
    (h : emitFile dsm src s f = some (s', os)) (hk : KeysInv s) :
    KeysInv s' ∧ s'.bytei_map = s.bytei_map := by
  simp only [emitFile, Option.pure_def, Option.bind_eq_bind, Option.bind_eq_some] at h
  obtain ⟨⟨s1, ls⟩, h1, h2⟩ := h
  obtain rfl : s1 = s' := congrArg Prod.fst (Option.some.inj h2)
  have hres := emitLines_keys dsm f (src f) _ 1 _ ls h1 (fun a b c hm => hk a b c hm)
  exact hres

/-- The file loop of the report keeps the key invariant and the offset map. -/
theorem outputFiles_keys (dsm : Bool) (src : String → List String) :
    ∀ (fs : List String) (s : State) (s' : State) (os : List OutLine),
      outputFiles dsm src s fs = some (s', os) → KeysInv s →
      KeysInv s' ∧ s'.bytei_map = s.bytei_map := by
  intro fs
  induction fs with
  | nil =>
    intro s s' os h hk
    obtain rfl : s = s' := congrArg Prod.fst (Option.some.inj h)
    exact ⟨hk, rfl⟩
  | cons f rest ih =>
    intro s s' os h hk
    simp only [outputFiles, Option.pure_def, Option.bind_eq_bind, Option.bind_eq_some] at h
    obtain ⟨⟨s1, o1⟩, h1, ⟨⟨s2, os2⟩, h2, h3⟩⟩ := h
    obtain rfl : s2 = s' := congrArg Prod.fst (Option.some.inj h3)
    obtain ⟨hk1, hb1⟩ := emitFile_keys dsm src s f s1 o1 h1 hk
    obtain ⟨hk2, hb2⟩ := ih s1 _ os2 h2 hk1
    exact ⟨hk2, hb2.trans hb1⟩

/-- A full report keeps the key invariant and the known-offset map. -/
theorem output_profiles_keys (src : String → List String) (s : State)
    (b : Bool) (out : List OutLine) (s' : State)
    (h : output_profiles src s = some (b, out, s')) (hk : KeysInv s) :
    KeysInv s' ∧ s'.bytei_map = s.bytei_map := by
  simp only [output_profiles] at h
  split at h
  · replace h := congrArg (fun t => t.2.2) (Option.some.inj h)
    obtain rfl : s = s' := h
    exact ⟨hk, rfl⟩
  · split at h
    · simp only [Option.bind_eq_bind, Option.pure_def, Option.some_bind] at h
      rw [Option.bind_eq_some] at h
      obtain ⟨⟨mn, mxv, sp⟩, hg, h2⟩ := h
      rw [Option.bind_eq_some] at h2
      obtain ⟨⟨s2, outs⟩, hOF, hP⟩ := h2
      obtain rfl : s2 = s' :=
        congrArg (fun t => t.2.2) (Option.some.inj hP)
      obtain ⟨hk2, hb2⟩ := outputFiles_keys _ src _ _ s2 outs hOF
        (fun a b c hm => hk a b c hm)
      exact ⟨hk2, hb2⟩
    · simp only [Option.bind_eq_bind, Option.pure_def, Option.some_bind] at h
      rw [Option.bind_eq_some] at h
      obtain ⟨⟨s2, outs⟩, hOF, hP⟩ := h
      obtain rfl : s2 = s' :=
        congrArg (fun t => t.2.2) (Option.some.inj hP)
      obtain ⟨hk2, hb2⟩ := outputFiles_keys _ src _ _ s2 outs hOF
        (fun a b c hm => hk a b c hm)
      exact ⟨hk2, hb2⟩

/-- One reservoir roll of the CPU handler keeps the key invariant (the two
defaultdict reads touch an offset that is already known). -/
theorem rollStep_keys (fname : String) (n : ℕ) (rnd : ℕ → Bool × ℕ) (s : State)
    (ctr : ℕ) (i : ℕ) (hin : i ∈ s.bytei_map fname n) (hk : KeysInv s) :
    (rollStep fname n rnd (s, ctr) i).1.bytei_map = s.bytei_map ∧
    KeysInv (rollStep fname n rnd (s, ctr) i).1 := by
  have h1 : (rollStep fname n rnd (s, ctr) i).1.memory_malloc_samples
      = s.memory_malloc_samples.touch fname n i := rfl
  have h2 : (rollStep fname n rnd (s, ctr) i).1.memory_free_samples
      = s.memory_free_samples.touch fname n i := rfl
  refine ⟨rfl, ?_⟩
  intro f l j hmem
  rw [h1, h2] at hmem
  show j ∈ s.bytei_map f l
  rcases hmem with hmem | hmem
  · rcases Dict3.touch_innerKeys_mem _ _ _ _ _ _ _ hmem with hmem | ⟨rfl, rfl, rfl⟩
    · exact hk f l j (Or.inl hmem)
    · exact hin
  · rcases Dict3.touch_innerKeys_mem _ _ _ _ _ _ _ hmem with hmem | ⟨rfl, rfl, rfl⟩
    · exact hk f l j (Or.inr hmem)
    · exact hin

/-- The per-line roll loop of the CPU handler keeps the key invariant. -/
theorem rollFold_keys (fname : String) (n : ℕ) (rnd : ℕ → Bool × ℕ) :
    ∀ (idxs : List ℕ) (s : State) (ctr : ℕ),
      (∀ j ∈ idxs, j ∈ s.bytei_map fname n) → KeysInv s →
      (idxs.foldl (rollStep fname n rnd) (s, ctr)).1.bytei_map = s.bytei_map ∧
      KeysInv (idxs.foldl (rollStep fname n rnd) (s, ctr)).1 := by
  intro idxs
  induction idxs with
  | nil => exact fun s ctr _ hk => ⟨rfl, hk⟩
  | cons i rest ih =>
    intro s ctr hsub hk
    show (List.foldl (rollStep fname n rnd) (rollStep fname n rnd (s, ctr) i)
        rest).1.bytei_map = s.bytei_map ∧ _
    obtain ⟨hb1, hk1⟩ := rollStep_keys fname n rnd s ctr i (hsub i (by simp)) hk
    have hpair : rollStep fname n rnd (s, ctr) i
        = ((rollStep fname n rnd (s, ctr) i).1, (rollStep fname n rnd (s, ctr) i).2) := rfl
    rw [hpair]
    obtain ⟨hb2, hk2⟩ := ih (rollStep fname n rnd (s, ctr) i).1
      (rollStep fname n rnd (s, ctr) i).2
      (fun j hj => by rw [hb1]; exact hsub j (List.mem_cons_of_mem i hj)) hk1
    exact ⟨hb2.trans hb1, hk2⟩

/-- Attributing one frame's CPU time keeps the key invariant. -/
theorem attrFrame_keys (thisF : Frame) (pt ct tt : ℚ) (n : ℕ) (rnd : ℕ → Bool × ℕ)
    (s : State) (ctr : ℕ) (fr : Frame) (hk : KeysInv s) :
    (attrFrame thisF pt ct tt n rnd (s, ctr) fr).1.bytei_map = s.bytei_map ∧
    KeysInv (attrFrame thisF pt ct tt n rnd (s, ctr) fr).1 := by
  simp only [attrFrame]
  split_ifs with h1 h2
  · refine ⟨?_, ?_⟩
    · refine (rollFold_keys fr.fname fr.f_lineno rnd _ _ _ ?_ ?_).1
      · exact fun j hj => hj
      · exact hk
    · refine (rollFold_keys fr.fname fr.f_lineno rnd _ _ _ ?_ ?_).2
      · exact fun j hj => hj
      · exact hk
  · refine ⟨?_, ?_⟩
    · refine (rollFold_keys fr.fname fr.f_lineno rnd _ _ _ ?_ ?_).1
      · exact fun j hj => hj
      · exact hk
    · refine (rollFold_keys fr.fname fr.f_lineno rnd _ _ _ ?_ ?_).2
      · exact fun j hj => hj
      · exact hk
  · refine ⟨?_, ?_⟩
    · refine (rollFold_keys fr.fname fr.f_lineno rnd _ _ _ ?_ ?_).1
      · exact fun j hj => hj
      · exact hk
    · refine (rollFold_keys fr.fname fr.f_lineno rnd _ _ _ ?_ ?_).2
      · exact fun j hj => hj
      · exact hk

/-- The attribution loop of the CPU handler keeps the key invariant. -/
theorem attrFold_keys (thisF : Frame) (pt ct tt : ℚ) (n : ℕ) (rnd : ℕ → Bool × ℕ) :
    ∀ (frs : List Frame) (s : State) (ctr : ℕ), KeysInv s →
      (frs.foldl (attrFrame thisF pt ct tt n rnd) (s, ctr)).1.bytei_map = s.bytei_map ∧
      KeysInv (frs.foldl (attrFrame thisF pt ct tt n rnd) (s, ctr)).1 := by
  intro frs
  induction frs with
  | nil => exact fun s ctr hk => ⟨rfl, hk⟩
  | cons fr rest ih =>
    intro s ctr hk
    show (List.foldl (attrFrame thisF pt ct tt n rnd)
        (attrFrame thisF pt ct tt n rnd (s, ctr) fr) rest).1.bytei_map = s.bytei_map ∧ _
    obtain ⟨hb1, hk1⟩ := attrFrame_keys thisF pt ct tt n rnd s ctr fr hk
    have hpair : attrFrame thisF pt ct tt n rnd (s, ctr) fr
        = ((attrFrame thisF pt ct tt n rnd (s, ctr) fr).1,
           (attrFrame thisF pt ct tt n rnd (s, ctr) fr).2) := rfl
    rw [hpair]
    obtain ⟨hb2, hk2⟩ := ih (attrFrame thisF pt ct tt n rnd (s, ctr) fr).1
      (attrFrame thisF pt ct tt n rnd (s, ctr) fr).2 hk1
    exact ⟨hb2.trans hb1, hk2⟩

/-- The footprint-sampling loop of the CPU handler keeps the key invariant. -/
theorem footFold_keys (now : ℚ) (rnd : ℕ → Bool × ℕ) :
    ∀ (l : List ℕ) (s : State) (ctr : ℕ), KeysInv s →
      (l.foldl (footSampleStep now rnd) (s, ctr)).1.bytei_map = s.bytei_map ∧
      KeysInv (l.foldl (footSampleStep now rnd) (s, ctr)).1 := by
  intro l
  induction l with
  | nil => exact fun s ctr hk => ⟨rfl, hk⟩
  | cons x rest ih =>
    intro s ctr hk
    show (List.foldl (footSampleStep now rnd)
        (footSampleStep now rnd (s, ctr) x) rest).1.bytei_map = s.bytei_map ∧ _
    have hpair : footSampleStep now rnd (s, ctr) x
        = ((footSampleStep now rnd (s, ctr) x).1,
           (footSampleStep now rnd (s, ctr) x).2) := rfl
    rw [hpair]
    obtain ⟨hb2, hk2⟩ := ih (footSampleStep now rnd (s, ctr) x).1
      (footSampleStep now rnd (s, ctr) x).2 (fun f l i hm => hk f l i hm)
    exact ⟨hb2, hk2⟩

/-- One CPU tick (including a possible embedded report) keeps the key
invariant. -/
theorem cpu_signal_handler_keys (a : String → String) (src : String → List String)
    (now tStop t1 t2 tEnd : ℚ) (rnd : ℕ → Bool × ℕ) (thisF : Frame)
    (others : List (Option Frame)) (s s' : State)
    (h : cpu_signal_handler a src now tStop t1 t2 tEnd rnd thisF others s = some s')
    (hk : KeysInv s) : KeysInv s' := by
  simp only [cpu_signal_handler] at h
  split at h
  · simp only [Option.bind_eq_bind, Option.pure_def, Option.some_bind] at h
    rw [Option.bind_eq_some] at h
    obtain ⟨⟨b0, out0, s2⟩, hop, h2⟩ := h
    have hk2 : KeysInv s2 :=
      (output_profiles_keys src _ b0 out0 s2 hop (fun x y z hm => hk x y z hm)).1
    rw [Option.bind_eq_some] at h2
    obtain ⟨nf, hff, h3⟩ := h2
    split at h3 <;> split at h3 <;>
      first
        | exact Option.noConfusion h3
        | (replace h3 := Option.some.inj h3;
           subst h3;
           refine fun f l i hm => ?_;
           refine (footFold_keys now rnd _ _ _ ?_).2 f l i hm;
           refine fun x y z hz => (attrFold_keys thisF _ _ _ _ rnd nf _ 0 ?_).2 x y z hz;
           exact fun v w u hu => hk2 v w u hu)
  · simp only [Option.bind_eq_bind, Option.pure_def, Option.some_bind] at h
    rw [Option.bind_eq_some] at h
    obtain ⟨nf, hff, h3⟩ := h
    split at h3 <;> split at h3 <;>
      first
        | exact Option.noConfusion h3
        | (replace h3 := Option.some.inj h3;
           subst h3;
           refine fun f l i hm => ?_;
           refine (footFold_keys now rnd _ _ _ ?_).2 f l i hm;
           refine fun x y z hz => (attrFold_keys thisF _ _ _ _ rnd nf _ 0 ?_).2 x y z hz;
           exact fun v w u hu => hk v w u hu)

/-- One handler delivery keeps the key invariant. -/
theorem stepEvent_keys (a : String → String) (src : String → List String)
    (rnd : ℕ → Bool × ℕ) (s : State) (e : Event) (s' : State) (tr : List ℚ)
    (h : stepEvent a src rnd s e = some (s', tr)) (hk : KeysInv s) : KeysInv s' := by
  cases e with
  | cpu now tStop t1 t2 tEnd thisF others =>
    simp only [stepEvent, Option.map_eq_some'] at h
    obtain ⟨x, hx, hp⟩ := h
    obtain rfl : x = s' := congrArg Prod.fst hp
    exact cpu_signal_handler_keys a src now tStop t1 t2 tEnd rnd thisF others s _ hx hk
  | alloc fr mf ff => exact allocation_handler_keys a fr mf ff s s' tr h hk

/-- Any sequence of handler deliveries keeps the key invariant. -/
theorem runEvents_keys (a : String → String) (src : String → List String)
    (rnd : ℕ → Bool × ℕ) :
    ∀ (evs : List Event) (s s' : State) (tr : List ℚ),
      runEvents a src rnd s evs = some (s', tr) → KeysInv s → KeysInv s' := by
  intro evs
  induction evs with
  | nil =>
    intro s s' tr h hk
    obtain rfl : s = s' := congrArg Prod.fst (Option.some.inj h)
    exact hk
  | cons e rest ih =>
    intro s s' tr h hk
    simp only [runEvents, Option.pure_def, Option.bind_eq_bind, Option.bind_eq_some] at h
    obtain ⟨⟨s1, t1⟩, h1, ⟨⟨s2, t2⟩, h2, h3⟩⟩ := h
    obtain rfl : s2 = s' := congrArg Prod.fst (Option.some.inj h3)
    exact ih s1 _ t2 h2 (stepEvent_keys a src rnd s e s1 t1 h1 hk)

/-- C7: every bytecode offset that appears as an innermost key of the
malloc-samples or free-samples table at some (file, line) — every offset that
ever received a memory sample or a defaultdict read — is recorded in
`bytei_map` at that same (file, line), after any sequence of handler
deliveries from a fresh profiler state. -/
theorem claim7_bytei_map (a : String → String) (src : String → List String)
    (rnd : ℕ → Bool × ℕ) (pp : String) (t0 : ℚ) (evs : List Event)
    (s : State) (tr : List ℚ)
    (h : runEvents a src rnd (initState pp t0) evs = some (s, tr)) :
    ∀ (f : String) (l i : ℕ),
      i ∈ s.memory_malloc_samples.innerKeys f l ∨
        i ∈ s.memory_free_samples.innerKeys f l →
      i ∈ s.bytei_map f l := by
  have hk0 : KeysInv (initState pp t0) := by
    intro f l i hm
    rcases hm with hm | hm <;> exact absurd hm (List.not_mem_nil i)
  exact runEvents_keys a src rnd evs (initState pp t0) s tr h hk0

/-- Witness for C7: the empty delivery sequence from a fresh state. -/
theorem claim7_witness : KeysInv (initState "/a" 0) :=
  claim7_bytei_map (fun x => x) (fun _ => []) (fun _ => (false, 0)) "/a" 0 []
    (initState "/a" 0) [] rfl

/-! ## Claim C9: the report is observationally idempotent

The second of two back-to-back `output_profiles` calls prints the same lines.
The machinery: `sortPairs` is idempotent; defaultdict touches change keys but
no values, so every quantity the report reads is preserved (`ObsEq`), and two
states that agree on those observables print the same lines. -/

/-- Lexicographic `pairLe` is total. -/
theorem pairLe_total (x y : ℚ × ℚ) : pairLe x y = true ∨ pairLe y x = true := by
  simp only [pairLe, decide_eq_true_eq]
  rcases lt_trichotomy x.1 y.1 with h | h | h
  · exact Or.inl (Or.inl h)
  · rcases le_total x.2 y.2 with h2 | h2
    · exact Or.inl (Or.inr ⟨h, h2⟩)
    · exact Or.inr (Or.inr ⟨h.symm, h2⟩)
  · exact Or.inr (Or.inl h)

/-- Lexicographic `pairLe` is transitive. -/
theorem pairLe_trans {x y z : ℚ × ℚ} (h1 : pairLe x y = true) (h2 : pairLe y z = true) :
    pairLe x z = true := by
  simp only [pairLe, decide_eq_true_eq] at h1 h2 ⊢
  rcases h1 with h1 | ⟨h1a, h1b⟩
  · rcases h2 with h2 | ⟨h2a, h2b⟩
    · exact Or.inl (h1.trans h2)
    · exact Or.inl (by rw [← h2a]; exact h1)
  · rcases h2 with h2 | ⟨h2a, h2b⟩
    · exact Or.inl (by rw [h1a]; exact h2)
    · exact Or.inr ⟨h1a.trans h2a, h1b.trans h2b⟩

/-- Membership after an insertion-sort insertion. -/
theorem mem_insertPair (x y : ℚ × ℚ) :
    ∀ (l : List (ℚ × ℚ)), y ∈ insertPair x l → y = x ∨ y ∈ l := by
  intro l
  induction l with
  | nil =>
    intro h
    simp only [insertPair, List.mem_singleton] at h
    exact Or.inl h
  | cons z zs ih =>
    intro h
    simp only [insertPair] at h
    split_ifs at h with hc
    · rcases List.mem_cons.mp h with h | h
      · exact Or.inl h
      · exact Or.inr h
    · rcases List.mem_cons.mp h with h | h
      · exact Or.inr (List.mem_cons.mpr (Or.inl h))
      · rcases ih h with h | h
        · exact Or.inl h
        · exact Or.inr (List.mem_cons.mpr (Or.inr h))

/-- Insertion preserves sortedness. -/
theorem insertPair_pairwise (x : ℚ × ℚ) :
    ∀ (l : List (ℚ × ℚ)), l.Pairwise (fun a b => pairLe a b = true) →
      (insertPair x l).Pairwise (fun a b => pairLe a b = true) := by
  intro l
  induction l with
  | nil =>
    intro _
    simp [insertPair]
  | cons z zs ih =>
    intro h
    rcases List.pairwise_cons.mp h with ⟨hz, hzs⟩
    simp only [insertPair]
    split_ifs with hc
    · refine List.pairwise_cons.mpr ⟨?_, h⟩
      intro b hb
      rcases List.mem_cons.mp hb with rfl | hb
      · exact hc
      · exact pairLe_trans hc (hz b hb)
    · refine List.pairwise_cons.mpr ⟨?_, ih hzs⟩
      intro b hb
      rcases mem_insertPair x b zs hb with heq | hb
      · rcases pairLe_total x z with ht | ht
        · exact absurd ht hc
        · rw [heq]
          exact ht
      · exact hz b hb

/-- `sortPairs` sorts. -/
theorem sortPairs_pairwise :
    ∀ (l : List (ℚ × ℚ)), (sortPairs l).Pairwise (fun a b => pairLe a b = true) := by
  intro l
  induction l with
  | nil => exact List.Pairwise.nil
  | cons x xs ih => exact insertPair_pairwise x (sortPairs xs) ih

/-- A sorted list is a fixed point of `sortPairs`. -/
theorem sortPairs_of_pairwise :
    ∀ (l : List (ℚ × ℚ)), l.Pairwise (fun a b => pairLe a b = true) → sortPairs l = l := by
  intro l
  induction l with
  | nil => intro _; rfl
  | cons x xs ih =>
    intro h
    rcases List.pairwise_cons.mp h with ⟨hx, hxs⟩
    show insertPair x (sortPairs xs) = x :: xs
    rw [ih hxs]
    cases xs with
    | nil => rfl
    | cons y ys =>
      show (if pairLe x y then x :: y :: ys else y :: insertPair x ys) = x :: y :: ys
      rw [if_pos (hx y (by simp))]

/-- In-place list sorting is idempotent. -/
theorem sortPairs_idem (l : List (ℚ × ℚ)) : sortPairs (sortPairs l) = sortPairs l :=
  sortPairs_of_pairwise _ (sortPairs_pairwise l)

/-- Insertion never yields the empty list. -/
theorem insertPair_ne_nil (x : ℚ × ℚ) (l : List (ℚ × ℚ)) : insertPair x l ≠ [] := by
  cases l with
  | nil => exact fun h => List.noConfusion h
  | cons y ys =>
    show (if pairLe x y then x :: y :: ys else y :: insertPair x ys) ≠ []
    split_ifs <;> exact fun h => List.noConfusion h

/-- Sorting yields the empty list only on the empty list. -/
theorem sortPairs_eq_nil (l : List (ℚ × ℚ)) : sortPairs l = [] ↔ l = [] := by
  cases l with
  | nil => simp [sortPairs]
  | cons x xs =>
    constructor
    · intro h
      exact absurd h (insertPair_ne_nil x (sortPairs xs))
    · intro h
      exact List.noConfusion h

/-- Key insertion as a finite set: it is `insert`. -/
theorem insKey_toFinset {α : Type} [DecidableEq α] (ks : List α) (k : α) :
    (insKey ks k).toFinset = insert k ks.toFinset := by
  simp only [insKey]
  split_ifs with h
  · rw [Finset.insert_eq_self.mpr (List.mem_toFinset.mpr h)]
  · ext a
    simp [or_comm]

/-- Touching a CPU table does not change its values. -/
theorem Dict2.touch_val (d : Dict2) (f : String) (l : ℕ) : (d.touch f l).val = d.val := rfl

/-- Reading a top-level CPU key does not change values. -/
theorem Dict2.touch1_val (d : Dict2) (f : String) : (d.touch1 f).val = d.val := rfl

/-- Touching preserves well-formedness of a CPU table. -/
theorem Dict2.WF_touch {d : Dict2} (h : d.WF) (f : String) (l : ℕ) : (d.touch f l).WF := by
  intro f' l' hm
  show d.val f' l' = 0
  apply h
  intro hmem
  apply hm
  show l' ∈ (if f' = f then insKey (d.keys2 f) l else d.keys2 f')
  split_ifs with hf
  · subst hf
    simp only [insKey]
    split_ifs with h2
    · exact hmem
    · exact List.mem_append.mpr (Or.inl hmem)
  · exact hmem

/-- Reading a top-level key preserves well-formedness. -/
theorem Dict2.WF_touch1 {d : Dict2} (h : d.WF) (f : String) : (d.touch1 f).WF :=
  fun f' l' hm => h f' l' hm

/-- Touching a well-formed CPU table does not change its per-file sums:
the key inserted by the read carries the default value `0`. -/
theorem Dict2.fileSum_touch {d : Dict2} (h : d.WF) (f : String) (l : ℕ) (g : String) :
    (d.touch f l).fileSum g = d.fileSum g := by
  simp only [Dict2.fileSum, Dict2.touch]
  split_ifs with hg
  · subst hg
    simp only [insKey]
    split_ifs with hl
    · rfl
    · rw [List.foldl_append]
      simp only [List.foldl_cons, List.foldl_nil]
      rw [h _ l hl, add_zero]
  · rfl

/-- Reading a top-level key does not change per-file sums. -/
theorem Dict2.fileSum_touch1 (d : Dict2) (f g : String) :
    (d.touch1 f).fileSum g = d.fileSum g := rfl

/-- Touching a memory table does not change its values. -/
theorem Dict3.touchVal (d : Dict3) (f : String) (l i : ℕ) : (d.touch f l i).val = d.val := rfl

/-- `sorted(all_instrumented_files)` through `filesOf`. -/
theorem sortedFiles_eq (s : State) :
    sortedFiles s = Finset.sort (fun a b => a ≤ b) (filesOf s) := rfl

/-- Members of the sorted file list are instrumented files. -/
theorem mem_filesOf_of_sorted {s : State} {f : String} (h : f ∈ sortedFiles s) :
    f ∈ filesOf s := (Finset.mem_sort (fun a b => a ≤ b)).mp h

/-- Equal file sets sort to equal lists. -/
theorem sortedFiles_congr {p q : State} (h : filesOf p = filesOf q) :
    sortedFiles p = sortedFiles q := by
  rw [sortedFiles_eq, sortedFiles_eq, h]

/-- `ObsEq` is reflexive. -/
theorem ObsEq.refl (p : State) : ObsEq p p :=
  ⟨rfl, rfl, rfl, rfl, rfl, rfl, rfl, rfl, rfl, rfl, rfl, rfl, rfl,
   fun _ => rfl, fun _ => rfl, rfl, fun _ _ => rfl⟩

/-- `ObsEq` is symmetric. -/
theorem ObsEq.symm {p q : State} (h : ObsEq p q) : ObsEq q p :=
  ⟨h.totC.symm, h.totM.symm, h.totF.symm, h.elap.symm, h.mfoot.symm, h.valP.symm,
   h.valC.symm, h.valM.symm, h.valF.symm, h.cntM.symm, h.cntF.symm, h.bytei.symm,
   h.files.symm, fun f => (h.sumP f).symm, fun f => (h.sumC f).symm, h.foot.symm,
   fun f n => (h.perline f n).symm⟩

/-- `ObsEq` is transitive. -/
theorem ObsEq.trans {p q r : State} (h1 : ObsEq p q) (h2 : ObsEq q r) : ObsEq p r :=
  ⟨h1.totC.trans h2.totC, h1.totM.trans h2.totM, h1.totF.trans h2.totF,
   h1.elap.trans h2.elap, h1.mfoot.trans h2.mfoot, h1.valP.trans h2.valP,
   h1.valC.trans h2.valC, h1.valM.trans h2.valM, h1.valF.trans h2.valF,
   h1.cntM.trans h2.cntM, h1.cntF.trans h2.cntF, h1.bytei.trans h2.bytei,
   h1.files.trans h2.files, fun f => (h1.sumP f).trans (h2.sumP f),
   fun f => (h1.sumC f).trans (h2.sumC f), h1.foot.trans h2.foot,
   fun f n => (h1.perline f n).trans (h2.perline f n)⟩

/-- One byte-index read inserts the file into the instrumented set (which
already contains it when the file is being reported). -/
theorem byteiStep_filesOf (fname : String) (n : ℕ) (s : State) (ag : LineAgg) (i : ℕ) :
    filesOf (byteiStep fname n (s, ag) i).1 = insert fname (filesOf s) := by
  show (s.cpu_samples_python.keys1 ++ s.cpu_samples_c.keys1 ++
      insKey s.memory_free_samples.keys1 fname ++
      insKey s.memory_malloc_samples.keys1 fname).toFinset = _
  simp only [List.toFinset_append, insKey_toFinset]
  show _ = insert fname (unionKeys s).toFinset
  simp only [unionKeys, List.toFinset_append]
  ext a
  simp only [Finset.mem_union, Finset.mem_insert]
  tauto

/-- Touching both CPU tables at a line of file `f` inserts `f` into the
instrumented set. -/
theorem filesOf_cpuTouch (p : State) (f : String) (n m : ℕ) :
    filesOf { p with
      cpu_samples_python := p.cpu_samples_python.touch f n,
      cpu_samples_c := p.cpu_samples_c.touch f m } = insert f (filesOf p) := by
  show (insKey p.cpu_samples_python.keys1 f ++ insKey p.cpu_samples_c.keys1 f ++
      p.memory_free_samples.keys1 ++ p.memory_malloc_samples.keys1).toFinset = _
  simp only [List.toFinset_append, insKey_toFinset]
  show _ = insert f (unionKeys p).toFinset
  simp only [unionKeys, List.toFinset_append]
  ext a
  simp only [Finset.mem_union, Finset.mem_insert]
  tauto

/-- The byte-index loop only inserts keys: every observable of the state is
preserved (values, counters, totals, reservoirs, the offset map, and — because
the file is already instrumented — the instrumented-file set). -/
theorem byteiFold_obs (fname : String) (n : ℕ) :
    ∀ (idxs : List ℕ) (s : State) (ag : LineAgg),
      (byteiLoop fname n s ag idxs).1.cpu_samples_python = s.cpu_samples_python ∧
      (byteiLoop fname n s ag idxs).1.cpu_samples_c = s.cpu_samples_c ∧
      (byteiLoop fname n s ag idxs).1.memory_malloc_samples.val
        = s.memory_malloc_samples.val ∧
      (byteiLoop fname n s ag idxs).1.memory_free_samples.val
        = s.memory_free_samples.val ∧
      (byteiLoop fname n s ag idxs).1.memory_malloc_count = s.memory_malloc_count ∧
      (byteiLoop fname n s ag idxs).1.memory_free_count = s.memory_free_count ∧
      (byteiLoop fname n s ag idxs).1.total_cpu_samples = s.total_cpu_samples ∧
      (byteiLoop fname n s ag idxs).1.total_memory_malloc_samples
        = s.total_memory_malloc_samples ∧
      (byteiLoop fname n s ag idxs).1.total_memory_free_samples
        = s.total_memory_free_samples ∧
      (byteiLoop fname n s ag idxs).1.elapsed_time = s.elapsed_time ∧
      (byteiLoop fname n s ag idxs).1.max_footprint = s.max_footprint ∧
      (byteiLoop fname n s ag idxs).1.per_line_footprint_samples
        = s.per_line_footprint_samples ∧
      (byteiLoop fname n s ag idxs).1.memory_footprint_samples
        = s.memory_footprint_samples ∧
      (byteiLoop fname n s ag idxs).1.bytei_map = s.bytei_map := by
  intro idxs
  induction idxs with
  | nil =>
    exact fun s ag => ⟨rfl, rfl, rfl, rfl, rfl, rfl, rfl, rfl, rfl, rfl, rfl, rfl,
      rfl, rfl⟩
  | cons i rest ih =>
    intro s ag
    obtain ⟨a1, a2, a3, a4, a5, a6, a7, a8, a9, a10, a11, a12, a13, a14⟩ :=
      ih (byteiStep fname n (s, ag) i).1 (byteiStep fname n (s, ag) i).2
    exact ⟨a1, a2, a3, a4, a5, a6, a7, a8, a9, a10, a11, a12, a13, a14⟩

/-- The byte-index loop preserves the instrumented-file set when the reported
file is already instrumented. -/
theorem byteiFold_files (fname : String) (n : ℕ) :
    ∀ (idxs : List ℕ) (s : State) (ag : LineAgg),
      fname ∈ filesOf s →
      filesOf (byteiLoop fname n s ag idxs).1 = filesOf s := by
  intro idxs
  induction idxs with
  | nil => exact fun s ag _ => rfl
  | cons i rest ih =>
    intro s ag hf
    have hf1 : fname ∈ filesOf (byteiStep fname n (s, ag) i).1 := by
      rw [byteiStep_filesOf]
      exact Finset.mem_insert_self _ _
    exact (ih (byteiStep fname n (s, ag) i).1 (byteiStep fname n (s, ag) i).2 hf1).trans
      ((byteiStep_filesOf fname n s ag i).trans (Finset.insert_eq_self.mpr hf))

/-- The per-line aggregates of the byte-index loop depend only on the sample
values and counts, which defaultdict touches do not change. -/
theorem byteiFold_ag (fname : String) (n : ℕ) :
    ∀ (idxs : List ℕ) (p q : State) (ag : LineAgg),
      p.memory_malloc_samples.val = q.memory_malloc_samples.val →
      p.memory_free_samples.val = q.memory_free_samples.val →
      p.memory_malloc_count = q.memory_malloc_count →
      p.memory_free_count = q.memory_free_count →
      (byteiLoop fname n p ag idxs).2 = (byteiLoop fname n q ag idxs).2 := by
  intro idxs
  induction idxs with
  | nil => intro p q ag _ _ _ _; rfl
  | cons i rest ih =>
    intro p q ag h1 h2 h3 h4
    have hag : (byteiStep fname n (p, ag) i).2 = (byteiStep fname n (q, ag) i).2 := by
      simp only [byteiStep, Dict3.touchVal]
      rw [h1, h2, h3, h4]
    show (List.foldl (byteiStep fname n) (byteiStep fname n (p, ag) i) rest).2
        = (List.foldl (byteiStep fname n) (byteiStep fname n (q, ag) i) rest).2
    have hpairp : byteiStep fname n (p, ag) i
        = ((byteiStep fname n (p, ag) i).1, (byteiStep fname n (p, ag) i).2) := rfl
    have hpairq : byteiStep fname n (q, ag) i
        = ((byteiStep fname n (q, ag) i).1, (byteiStep fname n (q, ag) i).2) := rfl
    rw [hpairp, hpairq, hag]
    exact ih (byteiStep fname n (p, ag) i).1 (byteiStep fname n (q, ag) i).1 _
      h1 h2 h3 h4

/-- The first component of the sparkline generator is the sorted sample list. -/
theorem generate_sparkline_fst (arr : List (ℚ × ℚ)) (mn mx : ℚ) :
    (generate_sparkline arr mn mx).1 = sortPairs arr := rfl

/-- Reading back the reservoir that was just replaced. -/
theorem setPerLine_at (s : State) (f : String) (l : ℕ) (its : List (ℚ × ℚ)) :
    (setPerLine s f l its).per_line_footprint_samples f l
      = { s.per_line_footprint_samples f l with items := its } := by
  simp [setPerLine]

/-- Reading any other per-line reservoir after a replacement. -/
theorem setPerLine_ne (s : State) (f : String) (l : ℕ) (its : List (ℚ × ℚ))
    (g : String) (m : ℕ) (h : ¬(g = f ∧ m = l)) :
    (setPerLine s f l its).per_line_footprint_samples g m
      = s.per_line_footprint_samples g m := by
  simp only [setPerLine]
  rw [if_neg h]

/-- Two observationally equal states print the same report line. -/
theorem lineObs_congr (dsm : Bool) (p q : State) (f : String) (n : ℕ) (raw : String)
    (hobs : ObsEq p q) : lineObs dsm p f n raw = lineObs dsm q f n raw := by
  simp only [lineObs]
  have hag : (byteiLoop f n p ⟨0, 0, 0, 0, 0, 0⟩ (p.bytei_map f n)).2
      = (byteiLoop f n q ⟨0, 0, 0, 0, 0, 0⟩ (q.bytei_map f n)).2 := by
    rw [hobs.bytei]
    exact byteiFold_ag f n (q.bytei_map f n) p q _ hobs.valM hobs.valF
      hobs.cntM hobs.cntF
  rw [hobs.valP, hobs.valC, hobs.totC, hobs.totM, hag]
  by_cases hdsm : dsm = true
  · rw [if_pos hdsm, if_pos hdsm]
    have hif : ((p.per_line_footprint_samples f n).items = [])
        ↔ ((q.per_line_footprint_samples f n).items = []) := by
      rw [← sortPairs_eq_nil (p.per_line_footprint_samples f n).items,
          ← sortPairs_eq_nil (q.per_line_footprint_samples f n).items,
          hobs.perline f n]
    have hg : (generate_sparkline (p.per_line_footprint_samples f n).items 0
          p.max_footprint).2
        = (generate_sparkline (q.per_line_footprint_samples f n).items 0
          q.max_footprint).2 := by
      simp only [generate_sparkline]
      rw [hobs.perline f n, hobs.mfoot]
    by_cases hit : (p.per_line_footprint_samples f n).items = []
    · rw [if_pos hit, if_pos (hif.mp hit)]
    · rw [if_neg hit, if_neg (fun hx => hit (hif.mpr hx)), hg]
  · rw [if_neg hdsm, if_neg hdsm]

/-- Reading back the item list that was just stored in a reservoir. -/
theorem reservoir_set_items (r : Reservoir) (x : List (ℚ × ℚ)) :
    (({ r with items := x }) : Reservoir).items = x := rfl

/-- `emitLine` prints exactly what the pure `lineObs` computes. -/
theorem emitLine_to_obs (dsm : Bool) (s : State) (f : String) (n : ℕ) (raw : String)
    (s2 : State) (o : OutLine) (h : emitLine dsm s f n raw = some (s2, o)) :
    lineObs dsm s f n raw = some o := by
  simp only [emitLine, Dict2.touch_val] at h
  obtain ⟨b1, b2, b3, b4, b5, b6, b7, b8, b9, b10, b11, b12, b13, b14⟩ :=
    byteiFold_obs f n (s.bytei_map f n)
      { s with cpu_samples_python := s.cpu_samples_python.touch f n,
               cpu_samples_c := s.cpu_samples_c.touch f n } ⟨0, 0, 0, 0, 0, 0⟩
  have hper : (byteiLoop f n
      { s with cpu_samples_python := s.cpu_samples_python.touch f n,
               cpu_samples_c := s.cpu_samples_c.touch f n }
      ⟨0, 0, 0, 0, 0, 0⟩ (s.bytei_map f n)).1.per_line_footprint_samples
      = s.per_line_footprint_samples := b12
  have hmf : (byteiLoop f n
      { s with cpu_samples_python := s.cpu_samples_python.touch f n,
               cpu_samples_c := s.cpu_samples_c.touch f n }
      ⟨0, 0, 0, 0, 0, 0⟩ (s.bytei_map f n)).1.max_footprint = s.max_footprint := b11
  have htm : (byteiLoop f n
      { s with cpu_samples_python := s.cpu_samples_python.touch f n,
               cpu_samples_c := s.cpu_samples_c.touch f n }
      ⟨0, 0, 0, 0, 0, 0⟩ (s.bytei_map f n)).1.total_memory_malloc_samples
      = s.total_memory_malloc_samples := b8
  have hag : (byteiLoop f n
      { s with cpu_samples_python := s.cpu_samples_python.touch f n,
               cpu_samples_c := s.cpu_samples_c.touch f n }
      ⟨0, 0, 0, 0, 0, 0⟩ (s.bytei_map f n)).2
      = (byteiLoop f n s ⟨0, 0, 0, 0, 0, 0⟩ (s.bytei_map f n)).2 :=
    byteiFold_ag f n (s.bytei_map f n) _ s ⟨0, 0, 0, 0, 0, 0⟩ rfl rfl rfl rfl
  rw [hper, hmf, htm, hag] at h
  simp only [lineObs]
  split at h
  · rename_i hdsm
    split at h
    · rename_i hit
      obtain rfl : _ = o := congrArg Prod.snd (Option.some.inj h)
      rw [if_pos hdsm, if_pos hit]
    · rename_i hit
      split at h
      · exact Option.noConfusion h
      · rename_i mn mx sp heq
        obtain rfl : _ = o := congrArg Prod.snd (Option.some.inj h)
        rw [if_pos hdsm, if_neg hit]
  · rename_i hdsm
    obtain rfl : _ = o := congrArg Prod.snd (Option.some.inj h)
    rw [if_neg hdsm]

/-- Conversely, whenever `lineObs` yields a line, `emitLine` succeeds and
prints it. -/
theorem emitLine_of_obs (dsm : Bool) (s : State) (f : String) (n : ℕ) (raw : String)
    (o : OutLine) (h : lineObs dsm s f n raw = some o) :
    ∃ s2, emitLine dsm s f n raw = some (s2, o) := by
  simp only [lineObs] at h
  simp only [emitLine, Dict2.touch_val]
  obtain ⟨b1, b2, b3, b4, b5, b6, b7, b8, b9, b10, b11, b12, b13, b14⟩ :=
    byteiFold_obs f n (s.bytei_map f n)
      { s with cpu_samples_python := s.cpu_samples_python.touch f n,
               cpu_samples_c := s.cpu_samples_c.touch f n } ⟨0, 0, 0, 0, 0, 0⟩
  have hper : (byteiLoop f n
      { s with cpu_samples_python := s.cpu_samples_python.touch f n,
               cpu_samples_c := s.cpu_samples_c.touch f n }
      ⟨0, 0, 0, 0, 0, 0⟩ (s.bytei_map f n)).1.per_line_footprint_samples
      = s.per_line_footprint_samples := b12
  have hmf : (byteiLoop f n
      { s with cpu_samples_python := s.cpu_samples_python.touch f n,
               cpu_samples_c := s.cpu_samples_c.touch f n }
      ⟨0, 0, 0, 0, 0, 0⟩ (s.bytei_map f n)).1.max_footprint = s.max_footprint := b11
  have htm : (byteiLoop f n
      { s with cpu_samples_python := s.cpu_samples_python.touch f n,
               cpu_samples_c := s.cpu_samples_c.touch f n }
      ⟨0, 0, 0, 0, 0, 0⟩ (s.bytei_map f n)).1.total_memory_malloc_samples
      = s.total_memory_malloc_samples := b8
  have hag : (byteiLoop f n
      { s with cpu_samples_python := s.cpu_samples_python.touch f n,
               cpu_samples_c := s.cpu_samples_c.touch f n }
      ⟨0, 0, 0, 0, 0, 0⟩ (s.bytei_map f n)).2
      = (byteiLoop f n s ⟨0, 0, 0, 0, 0, 0⟩ (s.bytei_map f n)).2 :=
    byteiFold_ag f n (s.bytei_map f n) _ s ⟨0, 0, 0, 0, 0, 0⟩ rfl rfl rfl rfl
  rw [hper, hmf, htm, hag]
  split at h
  · rename_i hdsm
    split at h
    · rename_i hit
      replace h := Option.some.inj h
      subst h
      rw [if_pos hdsm, if_pos hit]
      exact ⟨_, rfl⟩
    · rename_i hit
      split at h
      · exact Option.noConfusion h
      · rename_i mn mx sp heq
        replace h := Option.some.inj h
        subst h
        rw [if_pos hdsm, if_neg hit]
        exact ⟨_, rfl⟩
  · rename_i hdsm
    replace h := Option.some.inj h
    subst h
    rw [if_neg hdsm]
    exact ⟨_, rfl⟩

/-- One emitted line leaves the state observationally unchanged and keeps the
CPU tables well-formed: the defaultdict reads insert keys carrying default
values, and the in-place per-line sort is invisible after re-sorting. -/
theorem emitLine_obs (dsm : Bool) (s : State) (f : String) (n : ℕ) (raw : String)
    (s2 : State) (o : OutLine) (hwf : CpuWF s) (hf : f ∈ filesOf s)
    (h : emitLine dsm s f n raw = some (s2, o)) :
    ObsEq s s2 ∧ CpuWF s2 := by
  simp only [emitLine, Dict2.touch_val] at h
  obtain ⟨b1, b2, b3, b4, b5, b6, b7, b8, b9, b10, b11, b12, b13, b14⟩ :=
    byteiFold_obs f n (s.bytei_map f n)
      { s with cpu_samples_python := s.cpu_samples_python.touch f n,
               cpu_samples_c := s.cpu_samples_c.touch f n } ⟨0, 0, 0, 0, 0, 0⟩
  have hfin : f ∈ filesOf
      ({ s with cpu_samples_python := s.cpu_samples_python.touch f n,
                cpu_samples_c := s.cpu_samples_c.touch f n } : State) := by
    rw [filesOf_cpuTouch]
    exact Finset.mem_insert_self f _
  have hfiles : filesOf (byteiLoop f n
      { s with cpu_samples_python := s.cpu_samples_python.touch f n,
               cpu_samples_c := s.cpu_samples_c.touch f n }
      ⟨0, 0, 0, 0, 0, 0⟩ (s.bytei_map f n)).1 = filesOf s := by
    refine (byteiFold_files f n (s.bytei_map f n) _ _ hfin).trans ?_
    rw [filesOf_cpuTouch]
    exact Finset.insert_eq_self.mpr hf
  have hobsR : ObsEq s (byteiLoop f n
      { s with cpu_samples_python := s.cpu_samples_python.touch f n,
               cpu_samples_c := s.cpu_samples_c.touch f n }
      ⟨0, 0, 0, 0, 0, 0⟩ (s.bytei_map f n)).1 :=
    ⟨b7.symm, b8.symm, b9.symm, b10.symm, b11.symm,
     (congrArg Dict2.val b1).symm, (congrArg Dict2.val b2).symm,
     b3.symm, b4.symm, b5.symm, b6.symm, b14.symm, hfiles.symm,
     fun g => ((congrArg (fun d => Dict2.fileSum d g) b1).trans
       (Dict2.fileSum_touch hwf.1 f n g)).symm,
     fun g => ((congrArg (fun d => Dict2.fileSum d g) b2).trans
       (Dict2.fileSum_touch hwf.2 f n g)).symm,
     (congrArg (fun r => sortPairs r.items) b13).symm,
     fun g m => (congrArg (fun F => sortPairs (F g m).items) b12).symm⟩
  have hwfR : CpuWF (byteiLoop f n
      { s with cpu_samples_python := s.cpu_samples_python.touch f n,
               cpu_samples_c := s.cpu_samples_c.touch f n }
      ⟨0, 0, 0, 0, 0, 0⟩ (s.bytei_map f n)).1 := by
    constructor
    · show ((byteiLoop f n
      { s with cpu_samples_python := s.cpu_samples_python.touch f n,
               cpu_samples_c := s.cpu_samples_c.touch f n }
      ⟨0, 0, 0, 0, 0, 0⟩ (s.bytei_map f n)).1.cpu_samples_python).WF
      rw [b1]
      exact Dict2.WF_touch hwf.1 f n
    · show ((byteiLoop f n
      { s with cpu_samples_python := s.cpu_samples_python.touch f n,
               cpu_samples_c := s.cpu_samples_c.touch f n }
      ⟨0, 0, 0, 0, 0, 0⟩ (s.bytei_map f n)).1.cpu_samples_c).WF
      rw [b2]
      exact Dict2.WF_touch hwf.2 f n
  split at h
  · split at h
    · replace h := congrArg Prod.fst (Option.some.inj h)
      subst h
      exact ⟨hobsR, hwfR⟩
    · split at h
      · exact Option.noConfusion h
      · replace h := congrArg Prod.fst (Option.some.inj h)
        subst h
        refine ⟨⟨hobsR.totC, hobsR.totM, hobsR.totF, hobsR.elap, hobsR.mfoot,
          hobsR.valP, hobsR.valC, hobsR.valM, hobsR.valF, hobsR.cntM, hobsR.cntF,
          hobsR.bytei, hobsR.files, hobsR.sumP, hobsR.sumC, hobsR.foot, ?_⟩, hwfR⟩
        intro g m
        by_cases hgm : g = f ∧ m = n
        · obtain ⟨rfl, rfl⟩ := hgm
          rw [setPerLine_at, reservoir_set_items, generate_sparkline_fst,
            sortPairs_idem]
          exact hobsR.perline g m
        · rw [setPerLine_ne _ _ _ _ _ _ hgm]
          exact hobsR.perline g m
  · replace h := congrArg Prod.fst (Option.some.inj h)
    subst h
    exact ⟨hobsR, hwfR⟩

/-- The line loop leaves the state observationally unchanged. -/
theorem emitLines_obs (dsm : Bool) (f : String) :
    ∀ (raws : List String) (p : State) (n : ℕ) (p2 : State) (os : List OutLine),
      CpuWF p → f ∈ filesOf p →
      emitLines dsm f p n raws = some (p2, os) →
      ObsEq p p2 ∧ CpuWF p2 := by
  intro raws
  induction raws with
  | nil =>
    intro p n p2 os hwf _ h
    obtain rfl : p = p2 := congrArg Prod.fst (Option.some.inj h)
    exact ⟨ObsEq.refl p, hwf⟩
  | cons raw rest ih =>
    intro p n p2 os hwf hf h
    simp only [emitLines, Option.pure_def, Option.bind_eq_bind, Option.bind_eq_some] at h
    obtain ⟨⟨p1, o1⟩, h1, ⟨⟨px, os2⟩, h2, h3⟩⟩ := h
    obtain rfl : px = p2 := congrArg Prod.fst (Option.some.inj h3)
    obtain ⟨ho1, hw1⟩ := emitLine_obs dsm p f n raw p1 o1 hwf hf h1
    obtain ⟨ho2, hw2⟩ := ih p1 (n + 1) _ os2 hw1 (by rw [← ho1.files]; exact hf) h2
    exact ⟨ho1.trans ho2, hw2⟩

/-- Two observationally equal states emit the same lines for a file's source. -/
theorem emitLines_out (dsm : Bool) (f : String) :
    ∀ (raws : List String) (p q : State) (n : ℕ) (p2 : State) (os : List OutLine),
      CpuWF p → CpuWF q → f ∈ filesOf p → f ∈ filesOf q → ObsEq p q →
      emitLines dsm f p n raws = some (p2, os) →
      ∃ q2, emitLines dsm f q n raws = some (q2, os) := by
  intro raws
  induction raws with
  | nil =>
    intro p q n p2 os _ _ _ _ _ h
    obtain rfl : _ = os := congrArg Prod.snd (Option.some.inj h)
    exact ⟨q, rfl⟩
  | cons raw rest ih =>
    intro p q n p2 os hwp hwq hfp hfq hobs h
    simp only [emitLines, Option.pure_def, Option.bind_eq_bind, Option.bind_eq_some] at h
    obtain ⟨⟨p1, o1⟩, h1, ⟨⟨px, os2⟩, h2, h3⟩⟩ := h
    obtain rfl : _ = os := congrArg Prod.snd (Option.some.inj h3)
    have hlq : lineObs dsm q f n raw = some o1 :=
      (lineObs_congr dsm p q f n raw hobs).symm.trans
        (emitLine_to_obs dsm p f n raw p1 o1 h1)
    obtain ⟨q1, hq1⟩ := emitLine_of_obs dsm q f n raw o1 hlq
    obtain ⟨hop, hwp1⟩ := emitLine_obs dsm p f n raw p1 o1 hwp hfp h1
    obtain ⟨hoq, hwq1⟩ := emitLine_obs dsm q f n raw q1 o1 hwq hfq hq1
    obtain ⟨q2, hq2⟩ := ih p1 q1 (n + 1) px os2 hwp1 hwq1
      (by rw [← hop.files]; exact hfp) (by rw [← hoq.files]; exact hfq)
      ((hop.symm.trans hobs).trans hoq) h2
    simp only [emitLines, Option.pure_def, Option.bind_eq_bind, Option.bind_eq_some]
    exact ⟨q2, (q1, o1), hq1, (q2, os2), hq2, rfl⟩

/-- Touching both CPU tables' top-level keys of an instrumented file. -/
theorem filesOf_cpuTouch1 (p : State) (f : String) :
    filesOf { p with
      cpu_samples_python := p.cpu_samples_python.touch1 f,
      cpu_samples_c := p.cpu_samples_c.touch1 f } = insert f (filesOf p) := by
  show (insKey p.cpu_samples_python.keys1 f ++ insKey p.cpu_samples_c.keys1 f ++
      p.memory_free_samples.keys1 ++ p.memory_malloc_samples.keys1).toFinset = _
  simp only [List.toFinset_append, insKey_toFinset]
  show _ = insert f (unionKeys p).toFinset
  simp only [unionKeys, List.toFinset_append]
  ext a
  simp only [Finset.mem_union, Finset.mem_insert]
  tauto

/-- Reading `d[fname]` on both CPU tables of a reported file preserves the
observables and the table invariants. -/
theorem cpuTouch1_obs (p : State) (f : String) (hwf : CpuWF p) (hf : f ∈ filesOf p) :
    ObsEq p { p with cpu_samples_python := p.cpu_samples_python.touch1 f,
                     cpu_samples_c := p.cpu_samples_c.touch1 f } ∧
    CpuWF { p with cpu_samples_python := p.cpu_samples_python.touch1 f,
                   cpu_samples_c := p.cpu_samples_c.touch1 f } ∧
    f ∈ filesOf { p with cpu_samples_python := p.cpu_samples_python.touch1 f,
                         cpu_samples_c := p.cpu_samples_c.touch1 f } := by
  refine ⟨⟨rfl, rfl, rfl, rfl, rfl, rfl, rfl, rfl, rfl, rfl, rfl, rfl, ?_,
    fun _ => rfl, fun _ => rfl, rfl, fun _ _ => rfl⟩, ⟨?_, ?_⟩, ?_⟩
  · exact ((filesOf_cpuTouch1 p f).trans (Finset.insert_eq_self.mpr hf)).symm
  · exact Dict2.WF_touch1 hwf.1 f
  · exact Dict2.WF_touch1 hwf.2 f
  · rw [filesOf_cpuTouch1]
    exact Finset.mem_insert_self f _

/-- Reporting one file leaves the state observationally unchanged. -/
theorem emitFile_obs (dsm : Bool) (src : String → List String) (p : State)
    (f : String) (p2 : State) (os : List OutLine) (hwf : CpuWF p)
    (hf : f ∈ filesOf p) (h : emitFile dsm src p f = some (p2, os)) :
    ObsEq p p2 ∧ CpuWF p2 := by
  simp only [emitFile, Option.pure_def, Option.bind_eq_bind, Option.bind_eq_some] at h
  obtain ⟨⟨p1, ls⟩, h1, h2⟩ := h
  obtain rfl : p1 = p2 := congrArg Prod.fst (Option.some.inj h2)
  obtain ⟨hO, hW, hF⟩ := cpuTouch1_obs p f hwf hf
  obtain ⟨hO1, hW1⟩ := emitLines_obs dsm f (src f) _ 1 _ ls hW hF h1
  exact ⟨hO.trans hO1, hW1⟩

/-- Two observationally equal states print the same per-file report. -/
theorem emitFile_out (dsm : Bool) (src : String → List String) (p q : State)
    (f : String) (p2 : State) (os : List OutLine)
    (hwp : CpuWF p) (hwq : CpuWF q) (hfp : f ∈ filesOf p) (hfq : f ∈ filesOf q)
    (hobs : ObsEq p q) (h : emitFile dsm src p f = some (p2, os)) :
    ∃ q2, emitFile dsm src q f = some (q2, os) := by
  simp only [emitFile, Option.pure_def, Option.bind_eq_bind, Option.bind_eq_some,
    Dict2.fileSum_touch1] at h ⊢
  obtain ⟨⟨p1, ls⟩, h1, h2⟩ := h
  have h2snd : _ = os := congrArg Prod.snd (Option.some.inj h2)
  obtain ⟨hOp, hWp, hFp⟩ := cpuTouch1_obs p f hwp hfp
  obtain ⟨hOq, hWq, hFq⟩ := cpuTouch1_obs q f hwq hfq
  obtain ⟨q1, hq1⟩ := emitLines_out dsm f (src f) _ _ 1 p1 ls hWp hWq hFp hFq
    ((hOp.symm.trans hobs).trans hOq) h1
  refine ⟨q1, (q1, ls), hq1, ?_⟩
  refine congrArg (fun z => some ((q1 : State), z)) ?_
  rw [← h2snd]
  rw [hobs.totC, hobs.sumC f, hobs.sumP f, hobs.elap]

/-- The file loop leaves the state observationally unchanged. -/
theorem outputFiles_obs (dsm : Bool) (src : String → List String) :
    ∀ (fs : List String) (p : State) (p2 : State) (os : List OutLine),
      CpuWF p → (∀ g ∈ fs, g ∈ filesOf p) →
      outputFiles dsm src p fs = some (p2, os) →
      ObsEq p p2 ∧ CpuWF p2 := by
  intro fs
  induction fs with
  | nil =>
    intro p p2 os hwf _ h
    obtain rfl : p = p2 := congrArg Prod.fst (Option.some.inj h)
    exact ⟨ObsEq.refl p, hwf⟩
  | cons f rest ih =>
    intro p p2 os hwf hfs h
    simp only [outputFiles, Option.pure_def, Option.bind_eq_bind, Option.bind_eq_some] at h
    obtain ⟨⟨p1, o1⟩, h1, ⟨⟨px, os2⟩, h2, h3⟩⟩ := h
    obtain rfl : px = p2 := congrArg Prod.fst (Option.some.inj h3)
    obtain ⟨ho1, hw1⟩ := emitFile_obs dsm src p f p1 o1 hwf (hfs f (by simp)) h1
    obtain ⟨ho2, hw2⟩ := ih p1 _ os2 hw1
      (fun g hg => by rw [← ho1.files]; exact hfs g (by simp [hg])) h2
    exact ⟨ho1.trans ho2, hw2⟩

/-- Two observationally equal states print the same report for a file list. -/
theorem outputFiles_out (dsm : Bool) (src : String → List String) :
    ∀ (fs : List String) (p q : State) (p2 : State) (os : List OutLine),
      CpuWF p → CpuWF q → (∀ g ∈ fs, g ∈ filesOf p) → (∀ g ∈ fs, g ∈ filesOf q) →
      ObsEq p q → outputFiles dsm src p fs = some (p2, os) →
      ∃ q2, outputFiles dsm src q fs = some (q2, os) := by
  intro fs
  induction fs with
  | nil =>
    intro p q p2 os _ _ _ _ _ h
    obtain rfl : _ = os := congrArg Prod.snd (Option.some.inj h)
    exact ⟨q, rfl⟩
  | cons f rest ih =>
    intro p q p2 os hwp hwq hfsp hfsq hobs h
    simp only [outputFiles, Option.pure_def, Option.bind_eq_bind, Option.bind_eq_some] at h
    obtain ⟨⟨p1, o1⟩, h1, ⟨⟨px, os2⟩, h2, h3⟩⟩ := h
    obtain rfl : _ = os := congrArg Prod.snd (Option.some.inj h3)
    obtain ⟨q1, hq1⟩ := emitFile_out dsm src p q f p1 o1 hwp hwq
      (hfsp f (by simp)) (hfsq f (by simp)) hobs h1
    obtain ⟨hop, hwp1⟩ := emitFile_obs dsm src p f p1 o1 hwp (hfsp f (by simp)) h1
    obtain ⟨hoq, hwq1⟩ := emitFile_obs dsm src q f q1 o1 hwq (hfsq f (by simp)) hq1
    obtain ⟨q2, hq2⟩ := ih p1 q1 px os2 hwp1 hwq1
      (fun g hg => by rw [← hop.files]; exact hfsp g (by simp [hg]))
      (fun g hg => by rw [← hoq.files]; exact hfsq g (by simp [hg]))
      ((hop.symm.trans hobs).trans hoq) h2
    simp only [outputFiles, Option.pure_def, Option.bind_eq_bind, Option.bind_eq_some]
    exact ⟨q2, (q1, o1), hq1, (q2, os2), hq2, rfl⟩

/-- The in-place sort of the footprint reservoir's items by the header
sparkline is invisible to the observables. -/
theorem footSort_obs (s : State) :
    ObsEq s { s with memory_footprint_samples :=
      { s.memory_footprint_samples with items :=
          (generate_sparkline s.memory_footprint_samples.items 0 s.max_footprint).1 } } :=
  ⟨rfl, rfl, rfl, rfl, rfl, rfl, rfl, rfl, rfl, rfl, rfl, rfl, rfl,
   fun _ => rfl, fun _ => rfl,
   (sortPairs_idem s.memory_footprint_samples.items).symm,
   fun _ _ => rfl⟩

/-- A full report leaves the state observationally unchanged and keeps the
CPU tables well-formed. -/
theorem output_profiles_obs (src : String → List String) (s : State)
    (b : Bool) (out : List OutLine) (s1 : State) (hwf : CpuWF s)
    (h : output_profiles src s = some (b, out, s1)) :
    ObsEq s s1 ∧ CpuWF s1 := by
  simp only [output_profiles] at h
  split at h
  · obtain rfl : s = s1 := congrArg (fun t => t.2.2) (Option.some.inj h)
    exact ⟨ObsEq.refl s, hwf⟩
  · split at h
    · simp only [Option.bind_eq_bind, Option.pure_def, Option.some_bind] at h
      rw [Option.bind_eq_some] at h
      obtain ⟨⟨mn, mxv, sp⟩, hg, h2⟩ := h
      rw [Option.bind_eq_some] at h2
      obtain ⟨⟨s2, outs⟩, hOF, hP⟩ := h2
      obtain rfl : s2 = s1 := congrArg (fun t => t.2.2) (Option.some.inj hP)
      obtain ⟨hO2, hW2⟩ := outputFiles_obs _ src (sortedFiles s) _ _ outs
        (by exact hwf) (by exact fun g hg' => mem_filesOf_of_sorted hg') hOF
      exact ⟨(footSort_obs s).trans hO2, hW2⟩
    · simp only [Option.bind_eq_bind, Option.pure_def, Option.some_bind] at h
      rw [Option.bind_eq_some] at h
      obtain ⟨⟨s2, outs⟩, hOF, hP⟩ := h
      obtain rfl : s2 = s1 := congrArg (fun t => t.2.2) (Option.some.inj hP)
      obtain ⟨hO2, hW2⟩ := outputFiles_obs _ src (sortedFiles s) s _ outs hwf
        (fun g hg' => mem_filesOf_of_sorted hg') hOF
      exact ⟨hO2, hW2⟩

/-- Two observationally equal states print the same full report. -/
theorem output_profiles_out (src : String → List String) (p q : State)
    (b : Bool) (out : List OutLine) (p1 : State)
    (hwp : CpuWF p) (hwq : CpuWF q) (hobs : ObsEq p q)
    (h : output_profiles src p = some (b, out, p1)) :
    ∃ q1, output_profiles src q = some (b, out, q1) := by
  simp only [output_profiles] at h ⊢
  have hzero : (q.total_cpu_samples = 0 ∧ q.total_memory_malloc_samples = 0 ∧
      q.total_memory_free_samples = 0) ↔
      (p.total_cpu_samples = 0 ∧ p.total_memory_malloc_samples = 0 ∧
      p.total_memory_free_samples = 0) := by
    rw [hobs.totC, hobs.totM, hobs.totF]
  split at h
  · rename_i hz
    obtain rfl : false = b := congrArg (fun t => t.1) (Option.some.inj h)
    obtain rfl : _ = out := congrArg (fun t => t.2.1) (Option.some.inj h)
    rw [if_pos (hzero.mpr hz)]
    exact ⟨q, rfl⟩
  · rename_i hz
    rw [if_neg (fun hx => hz (hzero.mp hx))]
    have hd : (decide (0 < q.total_memory_free_samples + q.total_memory_malloc_samples))
        = (decide (0 < p.total_memory_free_samples + p.total_memory_malloc_samples)) := by
      rw [hobs.totF, hobs.totM]
    have hsf : sortedFiles q = sortedFiles p := sortedFiles_congr hobs.files.symm
    rw [hd, hsf]
    have hdsmIff : (0 < q.total_memory_free_samples + q.total_memory_malloc_samples)
        ↔ (0 < p.total_memory_free_samples + p.total_memory_malloc_samples) := by
      rw [hobs.totF, hobs.totM]
    split at h
    · rename_i hc
      have hqit : q.memory_footprint_samples.items ≠ [] := by
        intro hx
        refine hc.2 ((sortPairs_eq_nil p.memory_footprint_samples.items).mp ?_)
        rw [hobs.foot, hx]
        rfl
      rw [if_pos ⟨hdsmIff.mpr hc.1, hqit⟩]
      simp only [Option.bind_eq_bind, Option.pure_def, Option.some_bind] at h
      rw [Option.bind_eq_some] at h
      obtain ⟨⟨mn, mxv, sp⟩, hg, h2⟩ := h
      rw [Option.bind_eq_some] at h2
      obtain ⟨⟨s2, outs⟩, hOF, hP⟩ := h2
      obtain rfl : true = b := congrArg (fun t => t.1) (Option.some.inj hP)
      obtain rfl : _ = out := congrArg (fun t => t.2.1) (Option.some.inj hP)
      have hgq : (generate_sparkline q.memory_footprint_samples.items 0
          q.max_footprint).2 = some (mn, mxv, sp) := by
        refine Eq.trans ?_ hg
        simp only [generate_sparkline]
        rw [← hobs.foot, ← hobs.mfoot]
      obtain ⟨q2, hq2⟩ := outputFiles_out _ src (sortedFiles p) _ _ s2 outs
        (by exact hwp) (by exact hwq)
        (by exact fun g hg' => mem_filesOf_of_sorted hg')
        (by exact fun g hg' =>
          ((by rw [← hobs.files]; exact mem_filesOf_of_sorted hg') : g ∈ filesOf q))
        ((footSort_obs p).symm.trans (hobs.trans (footSort_obs q))) hOF
      simp only [Option.bind_eq_bind, Option.pure_def, Option.some_bind]
      simp only [Option.bind_eq_some]
      exact ⟨q2, (mn, mxv, sp), hgq, (q2, outs), hq2, rfl⟩
    · rename_i hc
      have hnq : ¬((0 < q.total_memory_free_samples +
          q.total_memory_malloc_samples) ∧
          q.memory_footprint_samples.items ≠ []) := by
        intro hx
        refine hc ⟨hdsmIff.mp hx.1, fun hy => hx.2 ?_⟩
        refine (sortPairs_eq_nil q.memory_footprint_samples.items).mp ?_
        rw [← hobs.foot, hy]
        rfl
      rw [if_neg hnq]
      simp only [Option.bind_eq_bind, Option.pure_def, Option.some_bind] at h
      rw [Option.bind_eq_some] at h
      obtain ⟨⟨s2, outs⟩, hOF, hP⟩ := h
      obtain rfl : true = b := congrArg (fun t => t.1) (Option.some.inj hP)
      obtain rfl : _ = out := congrArg (fun t => t.2.1) (Option.some.inj hP)
      obtain ⟨q2, hq2⟩ := outputFiles_out _ src (sortedFiles p) p q s2 outs hwp hwq
        (fun g hg' => mem_filesOf_of_sorted hg')
        (fun g hg' => by rw [← hobs.files]; exact mem_filesOf_of_sorted hg')
        hobs hOF
      simp only [Option.bind_eq_bind, Option.pure_def, Option.some_bind]
      simp only [Option.bind_eq_some]
      exact ⟨q2, (q2, outs), hq2, rfl⟩

/-- C9: calling `output_profiles` twice in succession — no signal delivered
and no source file changed in between — prints byte-identical output: the
second call returns the same flag and the same line list.  The hypothesis
`CpuWF s` states that the CPU sample tables are honest defaultdict models
(absent keys hold the default `0`), which holds for every state the program
reaches; the key insertions and in-place reservoir sorts performed by the
first call are invisible to the second. -/
theorem claim9_report_idempotent (src : String → List String) (s : State)
    (hwf : CpuWF s) (b : Bool) (out : List OutLine) (s1 : State)
    (h : output_profiles src s = some (b, out, s1)) :
    ∃ s2, output_profiles src s1 = some (b, out, s2) := by
  obtain ⟨hobs, hwf1⟩ := output_profiles_obs src s b out s1 hwf h
  exact output_profiles_out src s s1 b out s1 hwf hwf1 hobs h

/-- Witness for C9: a fresh profiler state (no samples yet) reports
`(false, [])` twice. -/
theorem claim9_witness :
    ∃ s2, output_profiles (fun _ => []) (initState "/a" 0)
      = some (false, [], s2) := by
  have hwf : CpuWF (initState "/a" 0) :=
    ⟨fun _ _ _ => rfl, fun _ _ _ => rfl⟩
  have h1 : output_profiles (fun _ => []) (initState "/a" 0)
      = some (false, [], initState "/a" 0) := by
    simp only [output_profiles]
    rw [if_pos ⟨rfl, rfl, rfl⟩]
  exact claim9_report_idempotent (fun _ => []) (initState "/a" 0) hwf false []
    (initState "/a" 0) h1

end Scalene
